import Mathlib

/-!
# Bubble-map builder (`scripts/build-bubblemap.js`)

A shallow embedding of the paged fetcher, the page aggregator, the graph
reducer and the paging driver of `scripts/build-bubblemap.js`, followed by
theorems about them.

Modelling conventions.

* Amounts are exact numbers: any linearly ordered ring `α` (for instance `ℤ`
  or `ℚ`).  Floating-point rounding, `NaN` and infinities are outside the model.
* A JavaScript `Map` with string keys is the list of its entries in insertion
  order (`JsMap`).  `Map.prototype.set` overwrites in place or appends.
* Addresses are strings, taken as sequences of characters.  The key
  `sender->receiver` is string concatenation and `key.split('->')` is
  `splitArrow`; the separator is ASCII, so cutting on characters and cutting on
  UTF-16 code units agree.
* `Array.prototype.sort` is stable and its comparator `(a, b) => b.value - a.value`
  is a consistent ordering on exact numbers, so it is modelled by a stable
  insertion sort, descending by `value`.
* The remote service is a deterministic transition function on an arbitrary
  state `σ`; one call of it is one `axios.request`.  Logging is not modelled;
  requests and sleeps are recorded in a trace.
* The two loops carry a fuel argument.  `fetchPage` and `main` supply enough
  fuel, and the totality lemmas below show that the fuel never runs out.
-/

namespace Bubblemap

/-! ## JavaScript `Map` -/

/-- A JavaScript `Map` with string keys: its entries in insertion order. -/
abbrev JsMap (V : Type) := List (String × V)

/-- The call `map.get(key)`; `none` is `undefined`. -/
def JsMap.get {V : Type} : JsMap V → String → Option V
  | [], _ => none
  | (k, v) :: rest, key => if k = key then some v else JsMap.get rest key

/-- The call `map.set(key, v)`: an existing key keeps its position, a new key is appended. -/
def JsMap.set {V : Type} : JsMap V → String → V → JsMap V
  | [], key, v => [(key, v)]
  | (k, w) :: rest, key, v =>
    if k = key then (k, v) :: rest else (k, w) :: JsMap.set rest key v

/-- The keys of a map, in insertion order. -/
def JsMap.keys {V : Type} (m : JsMap V) : List String := m.map Prod.fst

/-- The function `add(map, key, delta)`:
`map.set(key, (map.get(key) || 0) + delta)`. -/
def add {V : Type} [Zero V] [Add V] (map : JsMap V) (key : String) (delta : V) : JsMap V :=
  JsMap.set map key ((JsMap.get map key).getD 0 + delta)

/-! ## Transfer records and the page aggregator -/

/-- The object under `sender` or `receiver`; `address = none` is a missing or
`null` address. -/
structure Party where
  address : Option String
deriving DecidableEq

/-- One element of `json.data.solana.transfers`.  `amount = none` stands for an
amount that is missing or whose `typeof` is not `'number'`; `sender = none` for
a missing or `null` sender object, and likewise for `receiver`. -/
structure TransferRecord (α : Type) where
  amount : Option α
  sender : Option Party
  receiver : Option Party
deriving DecidableEq

/-- A page of records. -/
abbrev Page (α : Type) := List (TransferRecord α)

/-- The three accumulators of `main`. -/
structure Acc (α : Type) where
  nodeValueUSD : JsMap α
  linkValueUSD : JsMap α
  linkCount : JsMap Nat
deriving DecidableEq

/-- The accumulators at the start of `main`: three empty maps. -/
def Acc.empty {α : Type} : Acc α := ⟨[], [], []⟩

section Aggregator

variable {α : Type} [LinearOrderedRing α]

/-- The expression `typeof t.amount === 'number' ? t.amount : 0`. -/
def usdOf (t : TransferRecord α) : α :=
  match t.amount with
  | some a => a
  | none => 0

/-- The expression `x?.address || fallback`: a missing party, a missing address and the empty
string are all falsy. -/
def addressOr (p : Option Party) (fallback : String) : String :=
  match p with
  | some ⟨some a⟩ => if a = "" then fallback else a
  | _ => fallback

/-- The expression `t.sender?.address || 'UNKNOWN_SENDER'`. -/
def senderOf (t : TransferRecord α) : String := addressOr t.sender "UNKNOWN_SENDER"

/-- The expression `t.receiver?.address || 'UNKNOWN_RECEIVER'`. -/
def receiverOf (t : TransferRecord α) : String := addressOr t.receiver "UNKNOWN_RECEIVER"

/-- The template string `${sender}->${receiver}`. -/
def edgeKey (sender receiver : String) : String := sender ++ "->" ++ receiver

/-- The key under which a record is accumulated in the two edge maps. -/
def keyOf (t : TransferRecord α) : String := edgeKey (senderOf t) (receiverOf t)

/-- The body of `for (const t of page)`. -/
def foldRecord (acc : Acc α) (t : TransferRecord α) : Acc α :=
  let usd := usdOf t
  let sender := senderOf t
  let receiver := receiverOf t
  let nodeValueUSD := add acc.nodeValueUSD sender |usd|
  let nodeValueUSD := add nodeValueUSD receiver |usd|
  let key := edgeKey sender receiver
  let linkValueUSD := add acc.linkValueUSD key |usd|
  let linkCount := add acc.linkCount key 1
  ⟨nodeValueUSD, linkValueUSD, linkCount⟩

/-- The loop `for (const t of page)`. -/
def foldPage (acc : Acc α) (page : Page α) : Acc α := page.foldl foldRecord acc

/-- Folding several pages one after the other. -/
def foldPages (acc : Acc α) (pages : List (Page α)) : Acc α := pages.foldl foldPage acc

end Aggregator

/-! ## The graph reducer -/

/-- An output node `{ id, label, value }`. -/
structure Node (α : Type) where
  id : String
  label : String
  value : α
deriving DecidableEq

/-- An output edge `{ source, target, value, count }`. -/
structure Link (α : Type) where
  source : String
  target : String
  value : α
  count : Nat
deriving DecidableEq

/-- The object `out = { nodes, links: prunedLinks }`. -/
structure Graph (α : Type) where
  nodes : List (Node α)
  links : List (Link α)
deriving DecidableEq

/-- Prepend a character to the first part of a split. -/
def consFirst (c : Char) : List (List Char) → List (List Char)
  | [] => [[c]]
  | p :: ps => (c :: p) :: ps

/-- The parts of `s.split('->')` on character lists: the string is scanned from
the left and cut at every occurrence of `->`, occurrences not overlapping. -/
def splitArrowChars : List Char → List (List Char)
  | [] => [[]]
  | [c] => [[c]]
  | c :: d :: rest =>
    if c = '-' ∧ d = '>' then [] :: splitArrowChars rest
    else consFirst c (splitArrowChars (d :: rest))

/-- The array `key.split('->')`. -/
def splitArrow (key : String) : List String := (splitArrowChars key.data).map String.mk

section Reducer

variable {α : Type} [LinearOrderedRing α]

/-- The array `nodes`: entries of `nodeValueUSD` as `{ id, label: id, value }`,
sorted by `(a, b) => b.value - a.value`, cut by `.slice(0, 300)`. -/
def buildNodes (nodeValueUSD : JsMap α) : List (Node α) :=
  ((nodeValueUSD.map (fun e => (⟨e.1, e.1, e.2⟩ : Node α))).insertionSort
    (fun a b => b.value ≤ a.value)).take 300

/-- The array `links` before sorting.  `[source, target] = key.split('->')`
takes the first two parts; when there is no second part `target` is
`undefined`, which `allowed` (a set of strings) never contains, so the entry is
skipped. -/
def buildLinks (allowed : List String) (linkValueUSD : JsMap α) (linkCount : JsMap Nat) :
    List (Link α) :=
  linkValueUSD.filterMap (fun e =>
    match splitArrow e.1 with
    | source :: target :: _ =>
      if ¬ (source ∈ allowed) ∨ ¬ (target ∈ allowed) then none
      else some ⟨source, target, e.2, (JsMap.get linkCount e.1).getD 0⟩
    | _ => none)

/-- The array `prunedLinks`: `links` sorted by `(a, b) => b.value - a.value`, cut by
`.slice(0, 1000)`. -/
def pruneLinks (links : List (Link α)) : List (Link α) :=
  (links.insertionSort (fun a b => b.value ≤ a.value)).take 1000

/-- The part of `main` after the paging loop, up to `out`. -/
def buildGraph (acc : Acc α) : Graph α :=
  let nodes := buildNodes acc.nodeValueUSD
  let allowed := nodes.map (fun n => n.id)
  let links := buildLinks allowed acc.linkValueUSD acc.linkCount
  let prunedLinks := pruneLinks links
  ⟨nodes, prunedLinks⟩

end Reducer

/-! ## The paged fetcher -/

/-- The variables of one page request, `{ since, currency, limit, offset }`. -/
structure Params where
  since : String
  currency : String
  limit : Nat
  offset : Nat
deriving DecidableEq

/-- What one attempt comes to inside the `try` block of `fetchPage`: either an
exception (`axios.request` rejects or times out, the body carries `errors`, or
the body has no `data.solana`), or the value of `json.data.solana.transfers`,
where `none` is a missing or `null` list. -/
inductive Response (α : Type) where
  | failure (e : String)
  | items (page : Option (Page α))
deriving DecidableEq

/-- The remote service: a transition function on its state; one call is one
`axios.request`.  The query text is fixed for a run and is part of the service. -/
abbrev Service (σ α : Type) := σ → Params → Response α × σ

/-- Observable effects: a request (with the attempt number of `fetchPage`) and a
call of `sleep`. -/
inductive Event where
  | request (attempt : Nat) (params : Params)
  | sleep (ms : Nat)
deriving DecidableEq

deriving instance DecidableEq for Except

/-- How a call of `fetchPage` ends: `result` is the thrown error or the returned
value (`none` is `undefined` or `null`), `state` the service state afterwards,
`trace` the requests and sleeps performed, in order. -/
structure Fetched (σ α : Type) where
  result : Except String (Option (Page α))
  state : σ
  trace : List Event
deriving DecidableEq

/-- The loop `for (let attempt = 1; attempt <= retries; attempt++)` of `fetchPage`,
entered at `attempt`.  The first argument is fuel; `none` means it ran out. -/
def fetchPageLoop {σ α : Type} (service : Service σ α) (params : Params) (retries : Int)
    (backoffMs : Nat) : Nat → Nat → σ → Option (Fetched σ α)
  | 0, _, _ => none
  | fuel + 1, attempt, s =>
    if (attempt : Int) ≤ retries then
      match service s params with
      | (Response.items page, s1) =>
        some ⟨Except.ok page, s1, [Event.request attempt params]⟩
      | (Response.failure e, s1) =>
        if (attempt : Int) = retries then
          some ⟨Except.error e, s1, [Event.request attempt params]⟩
        else
          match fetchPageLoop service params retries backoffMs fuel (attempt + 1) s1 with
          | none => none
          | some r =>
            some ⟨r.result, r.state,
              Event.request attempt params :: Event.sleep (backoffMs * attempt) :: r.trace⟩
    else some ⟨Except.ok none, s, []⟩

/-- The function `fetchPage(gql, params, { timeoutMs, retries, backoffMs })`.  A
timeout is a failed attempt, so `timeoutMs` does not appear. -/
def fetchPage {σ α : Type} (service : Service σ α) (retries : Int) (backoffMs : Nat)
    (params : Params) (s : σ) : Option (Fetched σ α) :=
  fetchPageLoop service params retries backoffMs (retries.toNat + 1) 1 s

/-! ## The paging driver -/

/-- The constants at the head of `main`. -/
structure Config where
  pageSize : Nat
  timeoutMs : Nat
  retries : Int
  backoffMs : Nat
  interPageSleepMs : Nat
  maxPages : Nat
deriving DecidableEq

/-- The values the source gives to the constants. -/
def defaultConfig : Config := ⟨100, 60000, 5, 800, 200, 4⟩

/-- Which `break` ended the paging loop. -/
inductive StopReason where
  | emptyPage
  | maxPages
  | shortPage
deriving DecidableEq

/-- How the paging loop ends: `result` is the error thrown by `fetchPage` or the
`break` taken together with the accumulators; `fetches` are the parameters of
the calls of `fetchPage`, `folded` the pages folded, both in order. -/
structure Run (σ α : Type) where
  result : Except String (StopReason × Acc α)
  fetches : List Params
  folded : List (Page α)
  state : σ
  trace : List Event
deriving DecidableEq

section Driver

variable {σ α : Type} [LinearOrderedRing α]

/-- The loop `for (let offset = 0; ; offset += pageSize)` of `main`, entered at
`offset` with `pageCount` pages folded, over a page source `fetch`.  The first
argument is fuel; `none` means it ran out. -/
def pagingLoop (fetch : Params → σ → Option (Fetched σ α)) (cfg : Config)
    (since currency : String) : Nat → Nat → Nat → Acc α → σ → Option (Run σ α)
  | 0, _, _, _, _ => none
  | fuel + 1, offset, pageCount, acc, s =>
    let params : Params := ⟨since, currency, cfg.pageSize, offset⟩
    match fetch params s with
    | none => none
    | some f =>
      match f.result with
      | Except.error e => some ⟨Except.error e, [params], [], f.state, f.trace⟩
      | Except.ok none =>
        some ⟨Except.ok (StopReason.emptyPage, acc), [params], [], f.state, f.trace⟩
      | Except.ok (some page) =>
        if page.length = 0 then
          some ⟨Except.ok (StopReason.emptyPage, acc), [params], [], f.state, f.trace⟩
        else
          let pageCount := pageCount + 1
          let acc := foldPage acc page
          if pageCount ≥ cfg.maxPages then
            some ⟨Except.ok (StopReason.maxPages, acc), [params], [page], f.state, f.trace⟩
          else if page.length < cfg.pageSize then
            some ⟨Except.ok (StopReason.shortPage, acc), [params], [page], f.state, f.trace⟩
          else
            let pause :=
              if cfg.interPageSleepMs > 0 then [Event.sleep cfg.interPageSleepMs] else []
            match pagingLoop fetch cfg since currency fuel (offset + cfg.pageSize) pageCount acc
                f.state with
            | none => none
            | some r =>
              some ⟨r.result, params :: r.fetches, page :: r.folded, r.state,
                f.trace ++ pause ++ r.trace⟩

/-- How `main` ends: `out` is the graph, or the error that `main` lets through. -/
structure Finished (σ α : Type) where
  out : Except String (Graph α)
  run : Run σ α
deriving DecidableEq

/-- The function `main` from the accumulators to `out`, over a page source `fetch`. -/
def mainWith (fetch : Params → σ → Option (Fetched σ α)) (cfg : Config)
    (since currency : String) (s : σ) : Option (Finished σ α) :=
  match pagingLoop fetch cfg since currency (cfg.maxPages + 1) 0 0 Acc.empty s with
  | none => none
  | some r =>
    match r.result with
    | Except.error e => some ⟨Except.error e, r⟩
    | Except.ok (_, acc) => some ⟨Except.ok (buildGraph acc), r⟩

/-- The function `main`: the page source is `fetchPage` against the service. -/
def main (service : Service σ α) (cfg : Config) (since currency : String) (s : σ) :
    Option (Finished σ α) :=
  mainWith (fetchPage service cfg.retries cfg.backoffMs) cfg since currency s

end Driver

/-! ## Vocabulary of the statements -/

/-- The value under a key, read as `map.get(key) || 0`. -/
def total {V : Type} [Zero V] (m : JsMap V) (key : String) : V := (JsMap.get m key).getD 0

/-- Sum of the deltas that a list of `(key, delta)` updates gives to one key. -/
def deltaSum {V : Type} [Zero V] [Add V] (k : String) (l : List (String × V)) : V :=
  ((l.filter (fun e => e.1 = k)).map Prod.snd).sum

/-- Applying a list of `add` updates in order. -/
def addAll {V : Type} [Zero V] [Add V] (m : JsMap V) (l : List (String × V)) : JsMap V :=
  l.foldl (fun m e => add m e.1 e.2) m

/-- Whether a character list contains `->`. -/
def hasArrowChars : List Char → Bool
  | [] => false
  | [_] => false
  | c :: d :: rest => (c = '-' ∧ d = '>') || hasArrowChars (d :: rest)

/-- Whether a string contains `->`. -/
def hasArrow (s : String) : Bool := hasArrowChars s.data

section Sums

variable {α : Type} [LinearOrderedRing α]

/-- The updates a page makes to `nodeValueUSD`, in order. -/
def nodeUpdates (page : Page α) : List (String × α) :=
  page.flatMap (fun t => [(senderOf t, |usdOf t|), (receiverOf t, |usdOf t|)])

/-- The updates a page makes to `linkValueUSD`, in order. -/
def linkUpdates (page : Page α) : List (String × α) :=
  page.map (fun t => (keyOf t, |usdOf t|))

/-- The updates a page makes to `linkCount`, in order. -/
def countUpdates (page : Page α) : List (String × Nat) :=
  page.map (fun t => (keyOf t, 1))

/-- Sum over the records of `|usd|`, once if `a` is the resolved sender plus once
if `a` is the resolved receiver. -/
def nodeSum (a : String) (page : Page α) : α :=
  (page.map (fun t => (if senderOf t = a then |usdOf t| else 0) +
    (if receiverOf t = a then |usdOf t| else 0))).sum

/-- Sum of `|usd|` over the records accumulated under the edge key `key`. -/
def keySum (key : String) (page : Page α) : α :=
  (page.map (fun t => if keyOf t = key then |usdOf t| else 0)).sum

/-- Number of records accumulated under the edge key `key`. -/
def keyCount (key : String) (page : Page α) : Nat :=
  page.countP (fun t => keyOf t = key)

/-- Sum of `|usd|` over the records with resolved sender `s` and receiver `r`. -/
def pairSum (s r : String) (page : Page α) : α :=
  (page.map (fun t => if senderOf t = s ∧ receiverOf t = r then |usdOf t| else 0)).sum

/-- Number of records with resolved sender `s` and receiver `r`. -/
def pairCount (s r : String) (page : Page α) : Nat :=
  page.countP (fun t => senderOf t = s ∧ receiverOf t = r)

end Sums

/-- A party that is missing or `null`, or whose address is missing, `null` or
the empty string. -/
abbrev missing (p : Option Party) : Prop := p = none ∨ p = some ⟨none⟩ ∨ p = some ⟨some ""⟩

/-- The responses to `n` successive requests with the same parameters. -/
def responses {σ α : Type} (service : Service σ α) (params : Params) : Nat → σ → List (Response α)
  | 0, _ => []
  | n + 1, s => (service s params).1 :: responses service params n (service s params).2

/-- The service state after `n` successive requests with the same parameters. -/
def stateAfter {σ α : Type} (service : Service σ α) (params : Params) : Nat → σ → σ
  | 0, s => s
  | n + 1, s => stateAfter service params n (service s params).2

/-- The trace of `k` failed attempts, each followed by its backoff sleep, and one
more attempt, the first attempt having number `attempt`. -/
def retryTrace (params : Params) (backoffMs : Nat) : Nat → Nat → List Event
  | attempt, 0 => [Event.request attempt params]
  | attempt, k + 1 =>
    Event.request attempt params :: Event.sleep (backoffMs * attempt) ::
      retryTrace params backoffMs (attempt + 1) k

/-- Number of requests in a trace. -/
def attempts (trace : List Event) : Nat :=
  trace.countP (fun e => match e with
    | Event.request _ _ => true
    | Event.sleep _ => false)

/-- The delays of the sleeps in a trace, in order. -/
def sleeps (trace : List Event) : List Nat :=
  trace.filterMap (fun e => match e with
    | Event.request _ _ => none
    | Event.sleep ms => some ms)

/-- The relation `Serves fetch cfg since currency offset s pages s1`: from state
`s`, successive calls of the page source at offsets `offset`,
`offset + pageSize`, ... return the pages of `pages` in order and leave the
state `s1`. -/
def Serves {σ α : Type} (fetch : Params → σ → Option (Fetched σ α)) (cfg : Config)
    (since currency : String) : Nat → σ → List (Page α) → σ → Prop
  | _, s, [], s1 => s1 = s
  | offset, s, p :: ps, s1 =>
    ∃ f, fetch ⟨since, currency, cfg.pageSize, offset⟩ s = some f ∧
      f.result = Except.ok (some p) ∧
      Serves fetch cfg since currency (offset + cfg.pageSize) f.state ps s1

/-- The parameters of `n` successive page requests starting at `offset`. -/
def pageParams (cfg : Config) (since currency : String) (offset n : Nat) : List Params :=
  (List.range n).map (fun i => ⟨since, currency, cfg.pageSize, offset + i * cfg.pageSize⟩)

/-- The output node of an entry of `nodeValueUSD`: `{ id, label: id, value }`. -/
def toNode {α : Type} (e : String × α) : Node α := ⟨e.1, e.1, e.2⟩

/-- The output edge of an entry of `linkValueUSD`, if it passes the test on
`allowed`: the body of the loop over `linkValueUSD.entries()`. -/
def linkOfEntry {α : Type} (allowed : List String) (linkCount : JsMap Nat) (e : String × α) :
    Option (Link α) :=
  match splitArrow e.1 with
  | source :: target :: _ =>
    if ¬ (source ∈ allowed) ∨ ¬ (target ∈ allowed) then none
    else some ⟨source, target, e.2, (JsMap.get linkCount e.1).getD 0⟩
  | _ => none

/-- The ids of the retained nodes: the set `allowed`. -/
def retained {α : Type} [LinearOrderedRing α] (acc : Acc α) : List String :=
  (buildNodes acc.nodeValueUSD).map (fun n => n.id)

/-- The array `links` of `main` before it is sorted and cut. -/
def survivors {α : Type} [LinearOrderedRing α] (acc : Acc α) : List (Link α) :=
  buildLinks (retained acc) acc.linkValueUSD acc.linkCount

/-- Every key of the map is `s->r` for a sender `s` and a receiver `r` that do
not contain `->`. -/
def PlainKeys {V : Type} (m : JsMap V) : Prop :=
  ∀ e ∈ m, ∃ s r, hasArrow s = false ∧ hasArrow r = false ∧ e.1 = edgeKey s r

/-- The order in which keys are first inserted into an empty map by a sequence
of updates: each key is appended the first time it is met. -/
def insertionOrder (ks : List String) : List String :=
  ks.foldl (fun seen k => if k ∈ seen then seen else seen ++ [k]) []

/-- Sum of the values of a map. -/
def sumValues {V : Type} [Zero V] [Add V] (m : JsMap V) : V := (m.map Prod.snd).sum

/-- The calls of the page source made by `n` turns of the paging loop entered at
`offset` in state `s`, each with what it returned (fewer than `n` if the page
source runs out of fuel). -/
def fetchRuns {σ α : Type} (fetch : Params → σ → Option (Fetched σ α)) (cfg : Config)
    (since currency : String) : Nat → Nat → σ → List (Fetched σ α)
  | 0, _, _ => []
  | n + 1, offset, s =>
    match fetch ⟨since, currency, cfg.pageSize, offset⟩ s with
    | none => []
    | some f => f :: fetchRuns fetch cfg since currency n (offset + cfg.pageSize) f.state

/-- The page a fetch returned, if it returned a non-empty page. -/
def nonEmptyPage {α : Type} (result : Except String (Option (Page α))) : Option (Page α) :=
  match result with
  | Except.ok (some p) => if p.length = 0 then none else some p
  | _ => none

/-- The non-empty pages returned by a sequence of fetches, in order. -/
def pagesOf {σ α : Type} (fs : List (Fetched σ α)) : List (Page α) :=
  fs.filterMap (fun f => nonEmptyPage f.result)

/-! ## Concrete inputs -/

/-- Two records whose pairs differ and whose keys are both `a->b->c`. -/
def collidingPage : Page ℤ :=
  [⟨some 10, some ⟨some "a->b"⟩, some ⟨some "c"⟩⟩, ⟨some 5, some ⟨some "a"⟩, some ⟨some "b->c"⟩⟩]

/-- The page `[{amount 10, sender A, receiver B}, {amount 5, sender B, receiver A}]`. -/
def examplePage {α : Type} [LinearOrderedRing α] : Page α :=
  [⟨some 10, some ⟨some "A"⟩, some ⟨some "B"⟩⟩, ⟨some 5, some ⟨some "B"⟩, some ⟨some "A"⟩⟩]

/-- A record with no amount, no sender and an empty receiver address. -/
def blankRecord : TransferRecord ℤ := ⟨none, none, some ⟨some ""⟩⟩

/-- The graph of the end-to-end example. -/
def exampleGraph {α : Type} [LinearOrderedRing α] : Graph α :=
  ⟨[⟨"A", "A", 15⟩, ⟨"B", "B", 15⟩], [⟨"A", "B", 10, 1⟩, ⟨"B", "A", 5, 1⟩]⟩

/-- A service that answers from a script, one response per request. -/
def scripted : Service (List (Response ℤ)) ℤ := fun s _ =>
  match s with
  | [] => (Response.failure "no response", [])
  | r :: rs => (r, rs)

/-- A service that fails every request. -/
def down : Service Unit ℤ := fun s _ => (Response.failure "down", s)

/-- The constants of the source with `maxPages` set to 5. -/
def fivePages : Config := ⟨100, 60000, 5, 800, 200, 5⟩

/-- Parameters of one request in the examples. -/
def someParams : Params := ⟨"2025-09-24", "USDC", 100, 0⟩

/-- The accumulators after folding `examplePage`. -/
def exampleAcc : Acc ℤ :=
  ⟨[("A", 15), ("B", 15)], [("A->B", 10), ("B->A", 5)], [("A->B", 1), ("B->A", 1)]⟩

/-- A page of 100 records. -/
def fullPage : Page ℤ := List.replicate 100 ⟨some 10, some ⟨some "A"⟩, some ⟨some "B"⟩⟩

/-- A page of 40 records. -/
def lastPage : Page ℤ := List.replicate 40 ⟨some 5, some ⟨some "B"⟩, some ⟨some "A"⟩⟩

/-- A script of three successful responses with 100, 100 and 40 records. -/
def threePages : List (Response ℤ) :=
  [Response.items (some fullPage), Response.items (some fullPage), Response.items (some lastPage)]

/-- A script of two failures followed by a successful response. -/
def twoFailures : List (Response ℤ) :=
  [Response.failure "timeout", Response.failure "errors", Response.items (some examplePage)]

/-- More entries than the node cap: 301 addresses with the totals 301, 300, ..., 1. -/
def manyNodes : Acc ℤ :=
  ⟨(List.range 301).map (fun i => (String.mk (List.replicate i 'x'), 301 - (i : ℤ))), [], []⟩

/-- A record from `a->b` to `c` and a record from `a` to `b`. -/
def misattributedPage : Page ℤ :=
  [⟨some 10, some ⟨some "a->b"⟩, some ⟨some "c"⟩⟩, ⟨some 5, some ⟨some "a"⟩, some ⟨some "b"⟩⟩]

/-- The constants of the source with `retries` set to 0. -/
def noRetries : Config := ⟨100, 60000, 0, 800, 200, 4⟩

/-- A service that answers every request with a page of 100 records. -/
def endless : Service Unit ℤ := fun s _ => (Response.items (some fullPage), s)

/-! # Theorems -/

/-! ## Maps -/

theorem JsMap.get_set {V : Type} (m : JsMap V) (k k' : String) (v : V) :
    JsMap.get (JsMap.set m k v) k' = if k = k' then some v else JsMap.get m k' := by
  induction m with
  | nil => simp [JsMap.set, JsMap.get]
  | cons e rest ih =>
    obtain ⟨k0, w⟩ := e
    by_cases h0 : k0 = k
    · subst h0
      by_cases h1 : k0 = k' <;> simp [JsMap.set, JsMap.get, h1]
    · by_cases h1 : k0 = k'
      · subst h1
        have : ¬ k = k0 := fun h => h0 h.symm
        simp [JsMap.set, JsMap.get, h0, this]
      · simp [JsMap.set, JsMap.get, h0, h1, ih]

theorem get_add {V : Type} [Zero V] [Add V] (m : JsMap V) (k k' : String) (d : V) :
    JsMap.get (add m k d) k' = if k = k' then some (total m k + d) else JsMap.get m k' := by
  simp [add, total, JsMap.get_set]

theorem JsMap.mem_keys_iff {V : Type} (m : JsMap V) (k : String) :
    k ∈ JsMap.keys m ↔ (JsMap.get m k).isSome = true := by
  induction m with
  | nil => simp [JsMap.keys, JsMap.get]
  | cons e rest ih =>
    obtain ⟨k0, w⟩ := e
    by_cases h : k0 = k
    · simp [JsMap.keys, JsMap.get, h]
    · have h' : ¬ k = k0 := fun h1 => h h1.symm
      simpa [JsMap.keys, JsMap.get, h, h'] using ih

theorem deltaSum_of_not_mem {V : Type} [AddMonoid V] (k : String) (l : List (String × V))
    (h : k ∉ l.map Prod.fst) : deltaSum k l = 0 := by
  have : l.filter (fun e => e.1 = k) = [] := by
    rw [List.filter_eq_nil_iff]
    intro e he
    have : e.1 ≠ k := fun h1 => h (List.mem_map.mpr ⟨e, he, h1⟩)
    simpa using this
  simp [deltaSum, this]

/-- The value under a key after a list of updates: untouched when no update
names the key, otherwise the old value (or 0) plus the deltas for the key. -/
theorem get_addAll {V : Type} [AddMonoid V] (l : List (String × V)) (m : JsMap V) (k : String) :
    JsMap.get (addAll m l) k =
      if k ∈ l.map Prod.fst then some (total m k + deltaSum k l) else JsMap.get m k := by
  induction l generalizing m with
  | nil => simp [addAll]
  | cons e rest ih =>
    obtain ⟨k0, d0⟩ := e
    have hstep : addAll m ((k0, d0) :: rest) = addAll (add m k0 d0) rest := rfl
    rw [hstep, ih, get_add]
    by_cases h0 : k0 = k
    · subst h0
      by_cases hm : k0 ∈ rest.map Prod.fst
      · simp [hm, total, get_add, deltaSum, add_assoc]
      · have hz := deltaSum_of_not_mem k0 rest hm
        have hz' : deltaSum k0 ((k0, d0) :: rest) = d0 := by
          simp only [deltaSum] at hz ⊢
          simp [hz]
        simp only [List.map_cons, List.mem_cons, true_or, if_true, hz', if_neg hm]
    · have h0' : ¬ k = k0 := fun h => h0 h.symm
      have hd : deltaSum k ((k0, d0) :: rest) = deltaSum k rest := by
        simp [deltaSum, h0]
      have hmem : k ∈ ((k0, d0) :: rest).map Prod.fst ↔ k ∈ rest.map Prod.fst := by
        simp [h0']
      rw [if_congr hmem rfl rfl, hd]
      simp [h0, total, get_add]

theorem total_addAll {V : Type} [AddMonoid V] (l : List (String × V)) (m : JsMap V) (k : String) :
    total (addAll m l) k = total m k + deltaSum k l := by
  unfold total
  rw [get_addAll]
  split
  · rfl
  · next h => rw [deltaSum_of_not_mem k l h, add_zero]

/-! ## The reducer -/

/-- Sorting then cutting keeps only members of the list. -/
theorem mem_of_mem_take_insertionSort {β : Type} (r : β → β → Prop) [DecidableRel r] {n : Nat}
    {l : List β} {x : β} (h : x ∈ (l.insertionSort r).take n) : x ∈ l :=
  (List.perm_insertionSort r l).mem_iff.mp (List.mem_of_mem_take h)

/-- Sorting descending by a value, then cutting, gives a pairwise descending list. -/
theorem pairwise_take_insertionSort {α β : Type} [LinearOrderedRing α] (f : β → α) (n : Nat)
    (l : List β) :
    List.Pairwise (fun a b => f b ≤ f a) ((l.insertionSort (fun a b => f b ≤ f a)).take n) := by
  haveI : IsTotal β (fun a b => f b ≤ f a) := ⟨fun a b => le_total (f b) (f a)⟩
  haveI : IsTrans β (fun a b => f b ≤ f a) := ⟨fun a b c hab hbc => le_trans hbc hab⟩
  exact (List.sorted_insertionSort (fun a b => f b ≤ f a) l).sublist (List.take_sublist n _)

/-- Every link built has both ends in `allowed`. -/
theorem buildLinks_allowed {α : Type} (allowed : List String) (linkValueUSD : JsMap α)
    (linkCount : JsMap Nat) {e : Link α}
    (h : e ∈ buildLinks allowed linkValueUSD linkCount) :
    e.source ∈ allowed ∧ e.target ∈ allowed := by
  unfold buildLinks at h
  rw [List.mem_filterMap] at h
  obtain ⟨entry, -, hentry⟩ := h
  split at hentry
  · split at hentry
    · exact absurd hentry (by simp)
    · next hnot =>
      rw [not_or, not_not, not_not] at hnot
      cases hentry
      exact hnot
  · exact absurd hentry (by simp)

/-- Referential closure of the reducer, for arbitrary accumulators. -/
theorem buildGraph_closed {α : Type} [LinearOrderedRing α] (acc : Acc α) {e : Link α}
    (h : e ∈ (buildGraph acc).links) :
    (∃ n ∈ (buildGraph acc).nodes, n.id = e.source) ∧
    (∃ n ∈ (buildGraph acc).nodes, n.id = e.target) := by
  have h1 := mem_of_mem_take_insertionSort _ h
  have h2 := buildLinks_allowed _ _ _ h1
  simpa [buildGraph] using h2

theorem buildNodes_length_le {α : Type} [LinearOrderedRing α] (m : JsMap α) :
    (buildNodes m).length ≤ 300 := by
  simp [buildNodes, List.length_take]

theorem buildNodes_of_le {α : Type} [LinearOrderedRing α] (m : JsMap α) (h : m.length ≤ 300) :
    (buildNodes m).Perm (m.map (fun e => (⟨e.1, e.1, e.2⟩ : Node α))) := by
  unfold buildNodes
  rw [List.take_of_length_le (by simpa using h)]
  exact List.perm_insertionSort _ _

/-- C1 (referential closure).  Whatever pages were folded, with any records and
any address strings, every edge of the output graph has a `source` and a
`target` that are ids of nodes in the output node list. -/
theorem referential_closure {α : Type} [LinearOrderedRing α] (pages : List (Page α)) :
    ∀ e ∈ (buildGraph (foldPages Acc.empty pages)).links,
      (∃ n ∈ (buildGraph (foldPages Acc.empty pages)).nodes, n.id = e.source) ∧
      (∃ n ∈ (buildGraph (foldPages Acc.empty pages)).nodes, n.id = e.target) :=
  fun _ h => buildGraph_closed _ h

/-- C2 (cap respected).  For all accumulators the output has at most 300 nodes
and at most 1000 edges, and when the node accumulator holds at most 300 entries
every one of them is an output node and nothing else is. -/
theorem cap_respected {α : Type} [LinearOrderedRing α] (acc : Acc α) :
    (buildGraph acc).nodes.length ≤ 300 ∧ (buildGraph acc).links.length ≤ 1000 ∧
    (acc.nodeValueUSD.length ≤ 300 →
      (buildGraph acc).nodes.length = acc.nodeValueUSD.length ∧
      ∀ e ∈ acc.nodeValueUSD, (⟨e.1, e.1, e.2⟩ : Node α) ∈ (buildGraph acc).nodes) := by
  refine ⟨buildNodes_length_le _, by simp [buildGraph, pruneLinks, List.length_take], fun h => ?_⟩
  have hp := buildNodes_of_le acc.nodeValueUSD h
  refine ⟨by simpa using hp.length_eq, fun e he => ?_⟩
  exact hp.mem_iff.mpr (List.mem_map.mpr ⟨e, he, rfl⟩)

/-- C10 (sorted output).  For all accumulators the output node list and the
output edge list are in non-increasing order of `value`. -/
theorem sorted_output {α : Type} [LinearOrderedRing α] (acc : Acc α) :
    List.Pairwise (fun a b => b.value ≤ a.value) (buildGraph acc).nodes ∧
    List.Pairwise (fun a b => b.value ≤ a.value) (buildGraph acc).links :=
  ⟨pairwise_take_insertionSort (fun n : Node α => n.value) 300 _,
   pairwise_take_insertionSort (fun l : Link α => l.value) 1000 _⟩

/-! ## The aggregator -/

theorem addAll_append {V : Type} [Zero V] [Add V] (m : JsMap V) (l₁ l₂ : List (String × V)) :
    addAll m (l₁ ++ l₂) = addAll (addAll m l₁) l₂ := by
  simp [addAll, List.foldl_append]

/-- Folding a page applies its three update lists to the three maps. -/
theorem foldPage_eq {α : Type} [LinearOrderedRing α] (page : Page α) (acc : Acc α) :
    foldPage acc page =
      ⟨addAll acc.nodeValueUSD (nodeUpdates page), addAll acc.linkValueUSD (linkUpdates page),
        addAll acc.linkCount (countUpdates page)⟩ := by
  induction page generalizing acc with
  | nil => rfl
  | cons t rest ih =>
    have hstep : foldPage acc (t :: rest) = foldPage (foldRecord acc t) rest := rfl
    rw [hstep, ih]
    rfl

theorem deltaSum_nodeUpdates {α : Type} [LinearOrderedRing α] (a : String) (page : Page α) :
    deltaSum a (nodeUpdates page) = nodeSum a page := by
  induction page with
  | nil => rfl
  | cons t rest ih =>
    have ih' : ((List.filter (fun e => decide (e.1 = a)) (nodeUpdates rest)).map Prod.snd).sum
        = nodeSum a rest := ih
    by_cases hs : senderOf t = a <;> by_cases hr : receiverOf t = a <;>
      simp [deltaSum, nodeUpdates, nodeSum, hs, hr, List.filter_cons, add_assoc] at ih' ⊢ <;>
      rw [ih']

theorem deltaSum_linkUpdates {α : Type} [LinearOrderedRing α] (key : String) (page : Page α) :
    deltaSum key (linkUpdates page) = keySum key page := by
  induction page with
  | nil => rfl
  | cons t rest ih =>
    have ih' : ((List.filter (fun e => decide (e.1 = key)) (linkUpdates rest)).map Prod.snd).sum
        = keySum key rest := ih
    by_cases hs : keyOf t = key <;>
      simp [deltaSum, linkUpdates, keySum, hs, List.filter_cons] at ih' ⊢ <;>
      rw [ih']

theorem deltaSum_countUpdates {α : Type} [LinearOrderedRing α] (key : String) (page : Page α) :
    deltaSum key (countUpdates page) = keyCount key page := by
  induction page with
  | nil => rfl
  | cons t rest ih =>
    have ih' : ((List.filter (fun e => decide (e.1 = key)) (countUpdates rest)).map Prod.snd).sum
        = keyCount key rest := ih
    by_cases hs : keyOf t = key <;>
      simp [deltaSum, countUpdates, keyCount, hs, List.filter_cons, List.countP_cons] at ih' ⊢ <;>
      omega


/-! ## Keys and the separator -/

theorem hasArrowChars_tail {c : Char} {s : List Char} (h : hasArrowChars (c :: s) = false) :
    hasArrowChars s = false := by
  cases s with
  | nil => rfl
  | cons d rest =>
    simp only [hasArrowChars, Bool.or_eq_false_iff] at h
    exact h.2

/-- Splitting `s->r` when `s` has no `->`: the first part is `s`, the rest is the
split of `r`. -/
theorem splitArrowChars_append (s r : List Char) (h : hasArrowChars s = false) :
    splitArrowChars (s ++ '-' :: '>' :: r) = s :: splitArrowChars r := by
  induction s with
  | nil => simp [splitArrowChars]
  | cons c t ih =>
    have iht := ih (hasArrowChars_tail h)
    cases t with
    | nil =>
      have : ¬ ('-' = '>') := by decide
      simp only [List.cons_append, List.nil_append] at iht ⊢
      simp [splitArrowChars, consFirst]
    | cons d rest =>
      simp only [hasArrowChars, Bool.or_eq_false_iff, decide_eq_false_iff_not] at h
      simp only [List.cons_append] at iht ⊢
      rw [splitArrowChars, if_neg h.1, iht]
      rfl

theorem edgeKey_data (s r : String) : (edgeKey s r).data = s.data ++ '-' :: '>' :: r.data := by
  simp [edgeKey, String.data_append]

/-- The key determines the pair when the senders have no `->`. -/
theorem edgeKey_inj {s r s' r' : String} (hs : hasArrow s = false) (hs' : hasArrow s' = false)
    (h : edgeKey s r = edgeKey s' r') : s = s' ∧ r = r' := by
  have hd : s.data ++ '-' :: '>' :: r.data = s'.data ++ '-' :: '>' :: r'.data := by
    rw [← edgeKey_data, ← edgeKey_data, h]
  have h1 := splitArrowChars_append s.data r.data hs
  have h2 := splitArrowChars_append s'.data r'.data hs'
  rw [hd, h2] at h1
  have hsd : s'.data = s.data := (List.cons.inj h1).1
  have hss : s = s' := String.ext hsd.symm
  subst hss
  have hrd : r.data = r'.data := by
    have := List.append_cancel_left hd
    simpa using this
  exact ⟨rfl, String.ext hrd⟩


theorem keyOf_eq_iff {α : Type} [LinearOrderedRing α] (t : TransferRecord α) (s r : String)
    (hs : hasArrow s = false) (ht : hasArrow (senderOf t) = false) :
    keyOf t = edgeKey s r ↔ senderOf t = s ∧ receiverOf t = r := by
  constructor
  · intro h
    exact edgeKey_inj ht hs h
  · rintro ⟨h1, h2⟩
    rw [keyOf, h1, h2]

theorem keySum_eq_pairSum {α : Type} [LinearOrderedRing α] (page : Page α) (s r : String)
    (hs : hasArrow s = false) (hp : ∀ t ∈ page, hasArrow (senderOf t) = false) :
    keySum (edgeKey s r) page = pairSum s r page := by
  unfold keySum pairSum
  congr 1
  apply List.map_congr_left
  intro t ht
  by_cases h : keyOf t = edgeKey s r
  · rw [if_pos h, if_pos ((keyOf_eq_iff t s r hs (hp t ht)).mp h)]
  · rw [if_neg h, if_neg (fun h' => h ((keyOf_eq_iff t s r hs (hp t ht)).mpr h'))]

theorem keyCount_eq_pairCount {α : Type} [LinearOrderedRing α] (page : Page α) (s r : String)
    (hs : hasArrow s = false) (hp : ∀ t ∈ page, hasArrow (senderOf t) = false) :
    keyCount (edgeKey s r) page = pairCount s r page := by
  unfold keyCount pairCount
  apply List.countP_congr
  intro t ht
  simpa using keyOf_eq_iff t s r hs (hp t ht)

theorem total_nil {V : Type} [Zero V] (k : String) : total ([] : JsMap V) k = 0 := rfl

/-- Totals after folding a page into arbitrary accumulators. -/
theorem total_foldPage {α : Type} [LinearOrderedRing α] (acc : Acc α) (page : Page α) :
    (∀ a, total (foldPage acc page).nodeValueUSD a = total acc.nodeValueUSD a + nodeSum a page) ∧
    (∀ k, total (foldPage acc page).linkValueUSD k = total acc.linkValueUSD k + keySum k page) ∧
    (∀ k, total (foldPage acc page).linkCount k = total acc.linkCount k + keyCount k page) := by
  rw [foldPage_eq]
  refine ⟨fun a => ?_, fun k => ?_, fun k => ?_⟩
  · rw [total_addAll, deltaSum_nodeUpdates]
  · rw [total_addAll, deltaSum_linkUpdates]
  · rw [total_addAll, deltaSum_countUpdates]

/-- C3, counterexample.  On the page `collidingPage` the two records have
different (sender, receiver) pairs and the same key `a->b->c`: the edge total
under the key of the pair (`a->b`, `c`) is 15 and its count is 2, while the
records with that sender and receiver sum to 10 and number 1. -/
theorem fold_correctness_counterexample :
    total (foldPage Acc.empty collidingPage).linkValueUSD (edgeKey "a->b" "c") = 15 ∧
    pairSum "a->b" "c" collidingPage = 10 ∧
    total (foldPage Acc.empty collidingPage).linkCount (edgeKey "a->b" "c") = 2 ∧
    pairCount "a->b" "c" collidingPage = 1 := by decide

/-- C3 (fold correctness, amended).  After folding a list of records into empty
accumulators, the node total of every address `a` is the sum over the records of
`|usd|` counted once if `a` is the resolved sender plus once if `a` is the
resolved receiver; the edge total under every key is the sum of `|usd|` over the
records whose key `sender->receiver` is that string, and the edge count is the
number of such records; and when neither `s` nor any resolved sender in the list
contains `->`, the records accumulated under the key `s->r` are exactly those
with resolved sender `s` and receiver `r`. -/
theorem fold_correctness {α : Type} [LinearOrderedRing α] (page : Page α) :
    (∀ a, total (foldPage Acc.empty page).nodeValueUSD a = nodeSum a page) ∧
    (∀ key, total (foldPage Acc.empty page).linkValueUSD key = keySum key page ∧
      total (foldPage Acc.empty page).linkCount key = keyCount key page) ∧
    (∀ s r, hasArrow s = false → (∀ t ∈ page, hasArrow (senderOf t) = false) →
      total (foldPage Acc.empty page).linkValueUSD (edgeKey s r) = pairSum s r page ∧
      total (foldPage Acc.empty page).linkCount (edgeKey s r) = pairCount s r page) := by
  obtain ⟨h1, h2, h3⟩ := total_foldPage Acc.empty page
  have e1 : ∀ a, total (foldPage Acc.empty page).nodeValueUSD a = nodeSum a page := by
    intro a; rw [h1]; simp [Acc.empty, total_nil]
  have e2 : ∀ k, total (foldPage Acc.empty page).linkValueUSD k = keySum k page := by
    intro a; rw [h2]; simp [Acc.empty, total_nil]
  have e3 : ∀ k, total (foldPage Acc.empty page).linkCount k = keyCount k page := by
    intro a; rw [h3]; simp [Acc.empty, total_nil]
  refine ⟨e1, fun k => ⟨e2 k, e3 k⟩, fun s r hs hp => ⟨?_, ?_⟩⟩
  · rw [e2, keySum_eq_pairSum page s r hs hp]
  · rw [e3, keyCount_eq_pairCount page s r hs hp]

/-- C3, witness: the amended statement at `examplePage` and the pair (`A`, `B`). -/
theorem fold_correctness_witness :
    hasArrow "A" = false ∧ (∀ t ∈ (examplePage : Page ℤ), hasArrow (senderOf t) = false) ∧
    total (foldPage Acc.empty (examplePage : Page ℤ)).linkValueUSD (edgeKey "A" "B") =
      pairSum "A" "B" (examplePage : Page ℤ) ∧
    total (foldPage Acc.empty (examplePage : Page ℤ)).linkCount (edgeKey "A" "B") =
      pairCount "A" "B" (examplePage : Page ℤ) :=
  ⟨by decide, by decide,
    (fold_correctness (examplePage : Page ℤ)).2.2 "A" "B" (by decide) (by decide)⟩


theorem deltaSum_perm {V : Type} [AddCommMonoid V] (k : String) {l l' : List (String × V)}
    (h : l.Perm l') : deltaSum k l = deltaSum k l' :=
  ((h.filter _).map _).sum_eq

theorem get_addAll_perm {V : Type} [AddCommMonoid V] (m : JsMap V) {l l' : List (String × V)}
    (h : l.Perm l') (k : String) : JsMap.get (addAll m l') k = JsMap.get (addAll m l) k := by
  rw [get_addAll, get_addAll, deltaSum_perm k h]
  exact if_congr (h.map Prod.fst).mem_iff.symm rfl rfl

theorem JsMap.mem_keys_congr {V : Type} {m m' : JsMap V}
    (h : ∀ k, JsMap.get m' k = JsMap.get m k) (k : String) :
    k ∈ JsMap.keys m' ↔ k ∈ JsMap.keys m := by
  rw [JsMap.mem_keys_iff, JsMap.mem_keys_iff, h]

/-- C4 (commutativity of folding).  For every page, every permutation of its
records and every starting state of the three accumulators, folding the permuted
page gives maps with the same value under every key (node total, edge total,
edge count) and the same key sets as folding the original page. -/
theorem fold_commutes {α : Type} [LinearOrderedRing α] (page page' : Page α)
    (h : page.Perm page') (acc : Acc α) :
    (∀ k, JsMap.get (foldPage acc page').nodeValueUSD k =
        JsMap.get (foldPage acc page).nodeValueUSD k) ∧
    (∀ k, JsMap.get (foldPage acc page').linkValueUSD k =
        JsMap.get (foldPage acc page).linkValueUSD k) ∧
    (∀ k, JsMap.get (foldPage acc page').linkCount k =
        JsMap.get (foldPage acc page).linkCount k) ∧
    (∀ k, k ∈ JsMap.keys (foldPage acc page').nodeValueUSD ↔
        k ∈ JsMap.keys (foldPage acc page).nodeValueUSD) ∧
    (∀ k, k ∈ JsMap.keys (foldPage acc page').linkValueUSD ↔
        k ∈ JsMap.keys (foldPage acc page).linkValueUSD) ∧
    (∀ k, k ∈ JsMap.keys (foldPage acc page').linkCount ↔
        k ∈ JsMap.keys (foldPage acc page).linkCount) := by
  have hn : ∀ k, JsMap.get (foldPage acc page').nodeValueUSD k =
      JsMap.get (foldPage acc page).nodeValueUSD k := by
    intro k
    rw [foldPage_eq, foldPage_eq]
    exact get_addAll_perm _ (h.flatMap_right _) k
  have hl : ∀ k, JsMap.get (foldPage acc page').linkValueUSD k =
      JsMap.get (foldPage acc page).linkValueUSD k := by
    intro k
    rw [foldPage_eq, foldPage_eq]
    exact get_addAll_perm _ (h.map _) k
  have hc : ∀ k, JsMap.get (foldPage acc page').linkCount k =
      JsMap.get (foldPage acc page).linkCount k := by
    intro k
    rw [foldPage_eq, foldPage_eq]
    exact get_addAll_perm _ (h.map _) k
  exact ⟨hn, hl, hc, JsMap.mem_keys_congr hn, JsMap.mem_keys_congr hl, JsMap.mem_keys_congr hc⟩

/-- C4, witness: `examplePage` and its reversal. -/
theorem fold_commutes_witness :
    (examplePage : Page ℤ).Perm (examplePage : Page ℤ).reverse ∧
    ∀ k, JsMap.get (foldPage Acc.empty (examplePage : Page ℤ).reverse).nodeValueUSD k =
        JsMap.get (foldPage Acc.empty (examplePage : Page ℤ)).nodeValueUSD k :=
  ⟨(List.reverse_perm (examplePage : Page ℤ)).symm,
    (fold_commutes (examplePage : Page ℤ) (examplePage : Page ℤ).reverse
      (List.reverse_perm (examplePage : Page ℤ)).symm Acc.empty).1⟩

theorem addressOr_of_missing {p : Option Party} (h : missing p) (fallback : String) :
    addressOr p fallback = fallback := by
  rcases h with h | h | h <;> subst h <;> simp [addressOr]

/-- Totals after folding one record. -/
theorem total_foldRecord {α : Type} [LinearOrderedRing α] (acc : Acc α) (t : TransferRecord α) :
    (∀ a, total (foldRecord acc t).nodeValueUSD a = total acc.nodeValueUSD a +
      ((if senderOf t = a then |usdOf t| else 0) + (if receiverOf t = a then |usdOf t| else 0))) ∧
    (∀ k, total (foldRecord acc t).linkValueUSD k =
      total acc.linkValueUSD k + (if keyOf t = k then |usdOf t| else 0)) ∧
    (∀ k, total (foldRecord acc t).linkCount k =
      total acc.linkCount k + (if keyOf t = k then 1 else 0)) := by
  have h := total_foldPage acc [t]
  have e : foldPage acc [t] = foldRecord acc t := rfl
  rw [e] at h
  refine ⟨fun a => ?_, fun k => ?_, fun k => ?_⟩
  · rw [h.1]; simp [nodeSum]
  · rw [h.2.1]; simp [keySum]
  · rw [h.2.2]; by_cases hk : keyOf t = k <;> simp [keyCount, hk]

/-- C5 (sentinel fallback).  Folding one record into any accumulators: if the
sender is missing, `null`, or has a missing, `null` or empty address, the sender
resolves to `UNKNOWN_SENDER`, and `|usd|` is added to the node total of
`UNKNOWN_SENDER`, to the node total of the resolved receiver (each gets it twice
when the receiver is itself `UNKNOWN_SENDER`) and to the edge total under
`UNKNOWN_SENDER->receiver`; symmetrically for a missing receiver and
`UNKNOWN_RECEIVER`; and a record whose amount is missing or not a number leaves
every node total and every edge total unchanged and adds 1 to the count of its
edge. -/
theorem sentinel_fallback {α : Type} [LinearOrderedRing α] (acc : Acc α) (t : TransferRecord α) :
    (missing t.sender →
      senderOf t = "UNKNOWN_SENDER" ∧
      total (foldRecord acc t).nodeValueUSD "UNKNOWN_SENDER" =
        total acc.nodeValueUSD "UNKNOWN_SENDER" +
          (|usdOf t| + (if receiverOf t = "UNKNOWN_SENDER" then |usdOf t| else 0)) ∧
      total (foldRecord acc t).nodeValueUSD (receiverOf t) =
        total acc.nodeValueUSD (receiverOf t) +
          (|usdOf t| + (if receiverOf t = "UNKNOWN_SENDER" then |usdOf t| else 0)) ∧
      total (foldRecord acc t).linkValueUSD (edgeKey "UNKNOWN_SENDER" (receiverOf t)) =
        total acc.linkValueUSD (edgeKey "UNKNOWN_SENDER" (receiverOf t)) + |usdOf t|) ∧
    (missing t.receiver →
      receiverOf t = "UNKNOWN_RECEIVER" ∧
      total (foldRecord acc t).nodeValueUSD "UNKNOWN_RECEIVER" =
        total acc.nodeValueUSD "UNKNOWN_RECEIVER" +
          ((if senderOf t = "UNKNOWN_RECEIVER" then |usdOf t| else 0) + |usdOf t|) ∧
      total (foldRecord acc t).nodeValueUSD (senderOf t) =
        total acc.nodeValueUSD (senderOf t) +
          ((if senderOf t = "UNKNOWN_RECEIVER" then |usdOf t| else 0) + |usdOf t|) ∧
      total (foldRecord acc t).linkValueUSD (edgeKey (senderOf t) "UNKNOWN_RECEIVER") =
        total acc.linkValueUSD (edgeKey (senderOf t) "UNKNOWN_RECEIVER") + |usdOf t|) ∧
    (t.amount = none →
      (∀ a, total (foldRecord acc t).nodeValueUSD a = total acc.nodeValueUSD a) ∧
      (∀ k, total (foldRecord acc t).linkValueUSD k = total acc.linkValueUSD k) ∧
      total (foldRecord acc t).linkCount (keyOf t) = total acc.linkCount (keyOf t) + 1) := by
  obtain ⟨hn, hl, hc⟩ := total_foldRecord acc t
  refine ⟨fun h => ?_, fun h => ?_, fun h => ?_⟩
  · have hs : senderOf t = "UNKNOWN_SENDER" := addressOr_of_missing h _
    refine ⟨hs, ?_, ?_, ?_⟩
    · rw [hn, hs, if_pos rfl]
    · rw [hn, hs, if_pos rfl, add_comm |usdOf t|]
      by_cases hr : receiverOf t = "UNKNOWN_SENDER"
      · rw [if_pos hr, if_pos hr.symm]
      · rw [if_neg hr, if_neg (fun h' => hr h'.symm)]
    · rw [hl, keyOf, hs, if_pos rfl]
  · have hr : receiverOf t = "UNKNOWN_RECEIVER" := addressOr_of_missing h _
    refine ⟨hr, ?_, ?_, ?_⟩
    · rw [hn, hr, if_pos rfl]
    · rw [hn, hr, if_pos rfl, add_comm |usdOf t|]
      by_cases hs : senderOf t = "UNKNOWN_RECEIVER"
      · rw [if_pos hs, if_pos hs.symm]
      · rw [if_neg hs, if_neg (fun h' => hs h'.symm)]
    · rw [hl, keyOf, hr, if_pos rfl]
  · have hu : usdOf t = 0 := by simp [usdOf, h]
    refine ⟨fun a => ?_, fun k => ?_, ?_⟩
    · rw [hn, hu]; simp
    · rw [hl, hu]; simp
    · rw [hc, if_pos rfl]

/-- C5, witness: `blankRecord` has no amount, no sender and an empty receiver
address. -/
theorem sentinel_fallback_witness :
    missing blankRecord.sender ∧ missing blankRecord.receiver ∧ blankRecord.amount = none ∧
    senderOf blankRecord = "UNKNOWN_SENDER" ∧ receiverOf blankRecord = "UNKNOWN_RECEIVER" ∧
    total (foldRecord Acc.empty blankRecord).linkCount (keyOf blankRecord) =
      total (Acc.empty : Acc ℤ).linkCount (keyOf blankRecord) + 1 :=
  ⟨by decide, by decide, by decide,
    ((sentinel_fallback Acc.empty blankRecord).1 (by decide)).1,
    ((sentinel_fallback Acc.empty blankRecord).2.1 (by decide)).1,
    ((sentinel_fallback Acc.empty blankRecord).2.2 (by decide)).2.2⟩

/-! ## The fetcher and the driver -/

theorem attempts_retryTrace (params : Params) (backoffMs : Nat) (k attempt : Nat) :
    attempts (retryTrace params backoffMs attempt k) = k + 1 := by
  induction k generalizing attempt with
  | zero => rfl
  | succ k ih =>
    have := ih (attempt + 1)
    simp only [attempts, retryTrace, List.countP_cons] at this ⊢
    simp [this]

theorem sleeps_retryTrace (params : Params) (backoffMs : Nat) (k attempt : Nat) :
    sleeps (retryTrace params backoffMs attempt k) =
      (List.range k).map (fun i => backoffMs * (attempt + i)) := by
  induction k generalizing attempt with
  | zero => rfl
  | succ k ih =>
    have := ih (attempt + 1)
    simp only [sleeps, retryTrace, List.filterMap_cons] at this ⊢
    rw [this, List.range_succ_eq_map]
    simp [Nat.add_assoc, Nat.add_comm 1]

/-- The loop of `fetchPage` when the next `k` attempts fail and the one after
succeeds. -/
theorem fetchPageLoop_retry {σ α : Type} (service : Service σ α) (params : Params) (retries : Int)
    (backoffMs : Nat) (page : Option (Page α)) :
    ∀ (errs : List String) (attempt fuel : Nat) (s : σ),
      (attempt : Int) + errs.length ≤ retries → errs.length < fuel →
      responses service params (errs.length + 1) s =
        errs.map Response.failure ++ [Response.items page] →
      fetchPageLoop service params retries backoffMs fuel attempt s =
        some ⟨Except.ok page, stateAfter service params (errs.length + 1) s,
          retryTrace params backoffMs attempt errs.length⟩ := by
  intro errs
  induction errs with
  | nil =>
    intro attempt fuel s ha hf h
    obtain ⟨fuel, rfl⟩ : ∃ f, fuel = f + 1 := ⟨fuel - 1, by simp at hf; omega⟩
    simp only [responses, List.map_nil, List.nil_append, List.length_nil, Nat.zero_add,
      List.cons.injEq, and_true] at h
    have ha' : (attempt : Int) ≤ retries := by simpa using ha
    rw [fetchPageLoop, if_pos ha']
    rcases hsv : service s params with ⟨resp, s1⟩
    rw [hsv] at h
    simp only at h
    subst h
    simp [stateAfter, retryTrace, hsv]
  | cons e rest ih =>
    intro attempt fuel s ha hf h
    obtain ⟨fuel, rfl⟩ : ∃ f, fuel = f + 1 := ⟨fuel - 1, by simp at hf; omega⟩
    simp only [List.length_cons] at ha hf h ⊢
    have ha' : (attempt : Int) ≤ retries := by omega
    have hne : ¬ (attempt : Int) = retries := by omega
    rw [fetchPageLoop, if_pos ha']
    rcases hsv : service s params with ⟨resp, s1⟩
    rw [responses, hsv] at h
    simp only [List.map_cons, List.cons_append, List.cons.injEq] at h
    obtain ⟨h1, h2⟩ := h
    subst h1
    have hrec := ih (attempt + 1) fuel s1 (by push_cast; omega) (by omega) h2
    simp only [if_neg hne, hrec]
    simp [stateAfter, retryTrace, hsv]


/-- The loop of `fetchPage` when every remaining attempt fails, the last one
having number `retries`. -/
theorem fetchPageLoop_exhaust {σ α : Type} (service : Service σ α) (params : Params)
    (retries : Int) (backoffMs : Nat) (last : String) :
    ∀ (errs : List String) (attempt fuel : Nat) (s : σ),
      (attempt : Int) + errs.length = retries → errs.length < fuel →
      responses service params (errs.length + 1) s =
        (errs ++ [last]).map (Response.failure : String → Response α) →
      fetchPageLoop service params retries backoffMs fuel attempt s =
        some ⟨Except.error last, stateAfter service params (errs.length + 1) s,
          retryTrace params backoffMs attempt errs.length⟩ := by
  intro errs
  induction errs with
  | nil =>
    intro attempt fuel s ha hf h
    obtain ⟨fuel, rfl⟩ : ∃ f, fuel = f + 1 := ⟨fuel - 1, by simp at hf; omega⟩
    simp only [responses, List.map_nil, List.nil_append, List.length_nil, Nat.zero_add,
      List.cons.injEq, and_true, List.map_cons] at h
    have ha' : (attempt : Int) = retries := by simpa using ha
    rw [fetchPageLoop, if_pos (le_of_eq ha')]
    rcases hsv : service s params with ⟨resp, s1⟩
    rw [hsv] at h
    simp only at h
    subst h
    simp [stateAfter, retryTrace, hsv, ha']
  | cons e rest ih =>
    intro attempt fuel s ha hf h
    obtain ⟨fuel, rfl⟩ : ∃ f, fuel = f + 1 := ⟨fuel - 1, by simp at hf; omega⟩
    simp only [List.length_cons] at ha hf h ⊢
    have ha' : (attempt : Int) ≤ retries := by omega
    have hne : ¬ (attempt : Int) = retries := by omega
    rw [fetchPageLoop, if_pos ha']
    rcases hsv : service s params with ⟨resp, s1⟩
    rw [responses, hsv] at h
    simp only [List.map_cons, List.cons_append, List.cons.injEq] at h
    obtain ⟨h1, h2⟩ := h
    subst h1
    have hrec := ih (attempt + 1) fuel s1 (by push_cast; omega) (by omega) h2
    simp only [if_neg hne, hrec]
    simp [stateAfter, retryTrace, hsv]

/-- The fuel that `fetchPage` supplies never runs out. -/
theorem fetchPageLoop_total {σ α : Type} (service : Service σ α) (params : Params)
    (retries : Int) (backoffMs : Nat) :
    ∀ (fuel attempt : Nat) (s : σ), retries + 1 ≤ (attempt : Int) + fuel →
      ∃ r, fetchPageLoop service params retries backoffMs (fuel + 1) attempt s = some r := by
  intro fuel
  induction fuel with
  | zero =>
    intro attempt s h
    rw [fetchPageLoop]
    have : ¬ (attempt : Int) ≤ retries := by omega
    rw [if_neg this]
    exact ⟨_, rfl⟩
  | succ fuel ih =>
    intro attempt s h
    rw [fetchPageLoop]
    split
    · rcases hsv : service s params with ⟨resp, s1⟩
      cases resp with
      | items page => exact ⟨_, rfl⟩
      | failure e =>
        simp only
        split
        · exact ⟨_, rfl⟩
        · obtain ⟨r, hr⟩ := ih (attempt + 1) s1 (by push_cast; omega)
          rw [hr]
          exact ⟨_, rfl⟩
    · exact ⟨_, rfl⟩

/-- The function `fetchPage` always ends: with a page, with `undefined`, or
with an error. -/
theorem fetchPage_total {σ α : Type} (service : Service σ α) (retries : Int) (backoffMs : Nat)
    (params : Params) (s : σ) : ∃ r, fetchPage service retries backoffMs params s = some r :=
  fetchPageLoop_total service params retries backoffMs retries.toNat 1 s (by omega)

/-- C7 (retry then success).  If the first `k` attempts of a page request fail
(with errors `errs`, `k = errs.length < retries`) and attempt `k + 1` succeeds,
`fetchPage` makes exactly `k + 1` attempts, returns what the successful response
carries, and sleeps exactly `k` times, with delays `backoffMs * 1`, ...,
`backoffMs * k` in that order, each between two attempts. -/
theorem retry_then_success {σ α : Type} (service : Service σ α) (retries : Int) (backoffMs : Nat)
    (params : Params) (s : σ) (errs : List String) (page : Option (Page α))
    (hk : (errs.length : Int) < retries)
    (h : responses service params (errs.length + 1) s =
      errs.map Response.failure ++ [Response.items page]) :
    ∃ r, fetchPage service retries backoffMs params s = some r ∧
      r.result = Except.ok page ∧
      r.state = stateAfter service params (errs.length + 1) s ∧
      attempts r.trace = errs.length + 1 ∧
      sleeps r.trace = (List.range errs.length).map (fun i => backoffMs * (i + 1)) ∧
      r.trace = retryTrace params backoffMs 1 errs.length := by
  have hl := fetchPageLoop_retry service params retries backoffMs page errs 1 (retries.toNat + 1) s
    (by omega) (by omega) h
  refine ⟨_, hl, rfl, rfl, attempts_retryTrace _ _ _ _, ?_, rfl⟩
  simp only [sleeps_retryTrace, Nat.add_comm 1]


section DriverLemmas

variable {σ α : Type} [LinearOrderedRing α]

theorem pageParams_succ (cfg : Config) (since currency : String) (offset n : Nat) :
    pageParams cfg since currency offset (n + 1) =
      ⟨since, currency, cfg.pageSize, offset⟩ ::
        pageParams cfg since currency (offset + cfg.pageSize) n := by
  simp only [pageParams, List.range_succ_eq_map, List.map_cons, List.map_map]
  simp [Function.comp_def, Nat.add_mul, Nat.add_assoc, Nat.add_comm cfg.pageSize]

/-- One turn of the paging loop when the fetch throws. -/
theorem pagingLoop_error (fetch : Params → σ → Option (Fetched σ α)) (cfg : Config)
    (since currency : String) (fuel offset pageCount : Nat) (acc : Acc α) (s : σ)
    (f : Fetched σ α) (e : String)
    (hf : fetch ⟨since, currency, cfg.pageSize, offset⟩ s = some f)
    (hres : f.result = Except.error e) :
    pagingLoop fetch cfg since currency (fuel + 1) offset pageCount acc s =
      some ⟨Except.error e, [⟨since, currency, cfg.pageSize, offset⟩], [], f.state, f.trace⟩ := by
  simp only [pagingLoop, hf, hres]

/-- One turn of the paging loop on a non-empty short page below the page cap. -/
theorem pagingLoop_short (fetch : Params → σ → Option (Fetched σ α)) (cfg : Config)
    (since currency : String) (fuel offset pageCount : Nat) (acc : Acc α) (s : σ)
    (f : Fetched σ α) (p : Page α)
    (hf : fetch ⟨since, currency, cfg.pageSize, offset⟩ s = some f)
    (hres : f.result = Except.ok (some p)) (hne : p ≠ [])
    (hcount : pageCount + 1 < cfg.maxPages) (hshort : p.length < cfg.pageSize) :
    pagingLoop fetch cfg since currency (fuel + 1) offset pageCount acc s =
      some ⟨Except.ok (StopReason.shortPage, foldPage acc p),
        [⟨since, currency, cfg.pageSize, offset⟩], [p], f.state, f.trace⟩ := by
  have h0 : ¬ p.length = 0 := fun h => hne (List.length_eq_zero.mp h)
  have h1 : ¬ pageCount + 1 ≥ cfg.maxPages := by omega
  simp only [pagingLoop, hf, hres, if_neg h0, if_neg h1, if_pos hshort]

/-- Turns of the paging loop on full pages below the page cap: the loop goes on
from the state they leave. -/
theorem pagingLoop_full (fetch : Params → σ → Option (Fetched σ α)) (cfg : Config)
    (since currency : String) (s1 : σ) (fuel : Nat) (r : Run σ α) :
    ∀ (pages : List (Page α)) (offset pageCount : Nat) (acc : Acc α) (s : σ),
      Serves fetch cfg since currency offset s pages s1 →
      (∀ p ∈ pages, p.length = cfg.pageSize ∧ p ≠ []) →
      (pages = [] ∨ pageCount + pages.length < cfg.maxPages) →
      pagingLoop fetch cfg since currency fuel (offset + pages.length * cfg.pageSize)
        (pageCount + pages.length) (foldPages acc pages) s1 = some r →
      ∃ r1, pagingLoop fetch cfg since currency (fuel + pages.length) offset pageCount acc s =
          some r1 ∧
        r1.result = r.result ∧
        r1.fetches = pageParams cfg since currency offset pages.length ++ r.fetches ∧
        r1.folded = pages ++ r.folded ∧ r1.state = r.state := by
  intro pages
  induction pages with
  | nil =>
    intro offset pageCount acc s hserve _ _ hr
    simp only [Serves] at hserve
    subst hserve
    refine ⟨r, ?_, rfl, ?_, rfl, rfl⟩
    · simpa [foldPages] using hr
    · simp [pageParams]
  | cons p ps ih =>
    intro offset pageCount acc s hserve hfull hcount hr
    obtain ⟨f, hf, hres, hrest⟩ := hserve
    have hp : p.length = cfg.pageSize := (hfull p (List.mem_cons_self _ _)).1
    have h0 : ¬ p.length = 0 :=
      fun h => (hfull p (List.mem_cons_self _ _)).2 (List.length_eq_zero.mp h)
    have hcount : pageCount + (ps.length + 1) < cfg.maxPages := by
      rcases hcount with h | h
      · exact absurd h (by simp)
      · simpa using h
    simp only [List.length_cons] at hr
    have h1 : ¬ pageCount + 1 ≥ cfg.maxPages := by omega
    have h2 : ¬ p.length < cfg.pageSize := by omega
    have hr' : pagingLoop fetch cfg since currency fuel
        (offset + cfg.pageSize + ps.length * cfg.pageSize) (pageCount + 1 + ps.length)
        (foldPages (foldPage acc p) ps) s1 = some r := by
      have e1 : offset + cfg.pageSize + ps.length * cfg.pageSize =
          offset + (ps.length + 1) * cfg.pageSize := by rw [Nat.add_mul]; omega
      have e2 : pageCount + 1 + ps.length = pageCount + (ps.length + 1) := by omega
      rw [e1, e2]
      exact hr
    obtain ⟨r1, hr1, hres1, hfet1, hfold1, hst1⟩ :=
      ih (offset + cfg.pageSize) (pageCount + 1) (foldPage acc p) f.state hrest
        (fun q hq => hfull q (List.mem_cons_of_mem _ hq)) (Or.inr (by omega)) hr'
    have hgoal : pagingLoop fetch cfg since currency ((fuel + ps.length) + 1) offset pageCount
        acc s = some ⟨r1.result, ⟨since, currency, cfg.pageSize, offset⟩ :: r1.fetches,
          p :: r1.folded, r1.state,
          f.trace ++ (if cfg.interPageSleepMs > 0 then [Event.sleep cfg.interPageSleepMs]
            else []) ++ r1.trace⟩ := by
      simp only [pagingLoop, hf, hres, if_neg h0, if_neg h1, if_neg h2, hr1]
    refine ⟨_, hgoal, hres1, ?_, ?_, hst1⟩
    · simp only [List.length_cons, pageParams_succ, hfet1, List.cons_append]
    · simp only [hfold1, List.cons_append]

end DriverLemmas


/-- Serving `ps ++ qs` is serving `ps` and then `qs`. -/
theorem Serves_append {σ α : Type} (fetch : Params → σ → Option (Fetched σ α)) (cfg : Config)
    (since currency : String) (s1 : σ) (qs : List (Page α)) :
    ∀ (ps : List (Page α)) (offset : Nat) (s : σ),
      Serves fetch cfg since currency offset s (ps ++ qs) s1 →
      ∃ s0, Serves fetch cfg since currency offset s ps s0 ∧
        Serves fetch cfg since currency (offset + ps.length * cfg.pageSize) s0 qs s1 := by
  intro ps
  induction ps with
  | nil =>
    intro offset s h
    exact ⟨s, rfl, by simpa using h⟩
  | cons p ps ih =>
    intro offset s h
    obtain ⟨f, hf, hres, hrest⟩ := h
    obtain ⟨s0, h1, h2⟩ := ih (offset + cfg.pageSize) f.state hrest
    refine ⟨s0, ⟨f, hf, hres, h1⟩, ?_⟩
    have e : offset + (p :: ps).length * cfg.pageSize =
        offset + cfg.pageSize + ps.length * cfg.pageSize := by
      rw [List.length_cons, Nat.add_mul]; omega
    rw [e]
    exact h2

section DriverTheorems

variable {σ α : Type} [LinearOrderedRing α]

/-- The fuel that `main` supplies never runs out, when the page source always
answers. -/
theorem pagingLoop_total (fetch : Params → σ → Option (Fetched σ α)) (cfg : Config)
    (since currency : String) (hfetch : ∀ params s, ∃ f, fetch params s = some f) :
    ∀ (fuel offset pageCount : Nat) (acc : Acc α) (s : σ), cfg.maxPages ≤ pageCount + fuel + 1 →
      ∃ r, pagingLoop fetch cfg since currency (fuel + 1) offset pageCount acc s = some r := by
  intro fuel
  induction fuel with
  | zero =>
    intro offset pageCount acc s h
    obtain ⟨f, hf⟩ := hfetch ⟨since, currency, cfg.pageSize, offset⟩ s
    have h1 : pageCount + 1 ≥ cfg.maxPages := by omega
    rw [pagingLoop]
    simp only [hf, if_pos h1]
    split
    · exact ⟨_, rfl⟩
    · exact ⟨_, rfl⟩
    · split
      · exact ⟨_, rfl⟩
      · exact ⟨_, rfl⟩
  | succ fuel ih =>
    intro offset pageCount acc s h
    obtain ⟨f, hf⟩ := hfetch ⟨since, currency, cfg.pageSize, offset⟩ s
    rw [pagingLoop]
    simp only [hf]
    split
    · exact ⟨_, rfl⟩
    · exact ⟨_, rfl⟩
    · next page _ =>
      split
      · exact ⟨_, rfl⟩
      · split
        · exact ⟨_, rfl⟩
        · split
          · exact ⟨_, rfl⟩
          · obtain ⟨r, hr⟩ := ih (offset + cfg.pageSize) (pageCount + 1) (foldPage acc page)
              f.state (by omega)
            rw [hr]
            exact ⟨_, rfl⟩

/-- The function `main` always ends, with a graph or with an error. -/
theorem main_total (service : Service σ α) (cfg : Config) (since currency : String) (s : σ) :
    ∃ fin, main service cfg since currency s = some fin := by
  obtain ⟨r, hr⟩ := pagingLoop_total (fetchPage service cfg.retries cfg.backoffMs) cfg since
    currency (fun params s => fetchPage_total service _ _ params s) cfg.maxPages 0 0 Acc.empty s
    (by omega)
  rcases hres : r.result with e | ⟨stop, acc⟩
  · exact ⟨⟨Except.error e, r⟩, by simp only [main, mainWith, hr, hres]⟩
  · exact ⟨⟨Except.ok (buildGraph acc), r⟩, by simp only [main, mainWith, hr, hres]⟩

theorem foldPage_examplePage :
    foldPage Acc.empty (examplePage : Page α) =
      ⟨[("A", 15), ("B", 15)], [("A->B", 10), ("B->A", 5)], [("A->B", 1), ("B->A", 1)]⟩ := by
  have h1 : (10 : α) + 5 = 15 := by norm_num
  simp [foldPage, examplePage, foldRecord, Acc.empty, add, JsMap.get, JsMap.set, usdOf, senderOf,
    receiverOf, addressOr, edgeKey, h1]

theorem buildGraph_examplePage :
    buildGraph (foldPage Acc.empty (examplePage : Page α)) = exampleGraph := by
  have h1 : (5 : α) ≤ 10 := by norm_num
  have hs1 : splitArrow "A->B" = ["A", "B"] := by decide
  have hs2 : splitArrow "B->A" = ["B", "A"] := by decide
  rw [foldPage_examplePage]
  simp [buildGraph, buildNodes, buildLinks, pruneLinks, exampleGraph, List.insertionSort,
    List.orderedInsert, hs1, hs2, JsMap.get, h1]

/-- C6 (short-page stop).  With page size at least 1, if the page source returns
the pages `full`, each of exactly `pageSize` records, and then a non-empty page
`last` of fewer than `pageSize` records, and `maxPages` exceeds their number
`k = full.length + 1`, then `main` performs exactly `k` fetches, at offsets
`0`, `pageSize`, ..., folds all `k` pages, and leaves the loop through the
short-page `break`. -/
theorem short_page_stop (fetch : Params → σ → Option (Fetched σ α)) (cfg : Config)
    (since currency : String) (s s1 : σ) (full : List (Page α)) (last : Page α)
    (hsize : 1 ≤ cfg.pageSize) (hmax : full.length + 1 < cfg.maxPages)
    (hfull : ∀ p ∈ full, p.length = cfg.pageSize)
    (hne : last ≠ []) (hshort : last.length < cfg.pageSize)
    (hserve : Serves fetch cfg since currency 0 s (full ++ [last]) s1) :
    ∃ fin, mainWith fetch cfg since currency s = some fin ∧
      fin.run.fetches = pageParams cfg since currency 0 (full.length + 1) ∧
      fin.run.fetches.length = full.length + 1 ∧
      fin.run.folded = full ++ [last] ∧
      fin.run.result = Except.ok (StopReason.shortPage, foldPages Acc.empty (full ++ [last])) ∧
      fin.out = Except.ok (buildGraph (foldPages Acc.empty (full ++ [last]))) := by
  obtain ⟨s0, hs0, hlast⟩ := Serves_append fetch cfg since currency s1 [last] full 0 s hserve
  obtain ⟨f, hf, hres, -⟩ := hlast
  have hstep := pagingLoop_short fetch cfg since currency (cfg.maxPages - full.length)
    (0 + full.length * cfg.pageSize) (0 + full.length) (foldPages Acc.empty full) s0 f last hf hres
    hne (by omega) hshort
  obtain ⟨r1, hr1, hres1, hfet1, hfold1, -⟩ :=
    pagingLoop_full fetch cfg since currency s0 (cfg.maxPages - full.length + 1) _ full 0 0
      Acc.empty s hs0
      (fun p hp => ⟨hfull p hp, fun h => by have := hfull p hp; rw [h] at this; simp at this; omega⟩)
      (Or.inr (by omega)) hstep
  have hfuel : cfg.maxPages - full.length + 1 + full.length = cfg.maxPages + 1 := by omega
  rw [hfuel] at hr1
  have hfold : foldPage (foldPages Acc.empty full) last = foldPages Acc.empty (full ++ [last]) := by
    simp [foldPages, List.foldl_append]
  simp only [hfold] at hres1
  have hpar : r1.fetches = pageParams cfg since currency 0 (full.length + 1) := by
    rw [hfet1]
    simp [pageParams, List.range_succ]
  refine ⟨⟨Except.ok (buildGraph (foldPages Acc.empty (full ++ [last]))), r1⟩, ?_, hpar, ?_,
    hfold1, hres1, rfl⟩
  · simp only [mainWith, hr1, hres1]
  · rw [hpar]; simp [pageParams]

/-- C8 (retry exhaustion).  With `retries = init.length + 1 ≥ 1`, if every
attempt of a page request fails (the request made after the pages `full` were
fetched and folded), `fetchPage` makes exactly `retries` attempts and throws the
error of the last attempt, having slept exactly `retries - 1` times, the trace
ending with the last attempt; and `main` ends with that error and produces no
graph. -/
theorem retry_exhaustion (service : Service σ α) (cfg : Config) (since currency : String)
    (s s1 : σ) (full : List (Page α)) (init : List String) (last : String)
    (hretries : (init.length : Int) + 1 = cfg.retries)
    (hfull : ∀ p ∈ full, p.length = cfg.pageSize ∧ p ≠ [])
    (hcount : full.length < max 1 cfg.maxPages)
    (hserve : Serves (fetchPage service cfg.retries cfg.backoffMs) cfg since currency 0 s full s1)
    (hfail : responses service ⟨since, currency, cfg.pageSize, full.length * cfg.pageSize⟩
      (init.length + 1) s1 = (init ++ [last]).map Response.failure) :
    (∃ r, fetchPage service cfg.retries cfg.backoffMs
          ⟨since, currency, cfg.pageSize, full.length * cfg.pageSize⟩ s1 = some r ∧
        r.result = Except.error last ∧
        attempts r.trace = init.length + 1 ∧
        (sleeps r.trace).length = init.length ∧
        sleeps r.trace = (List.range init.length).map (fun i => cfg.backoffMs * (i + 1)) ∧
        r.trace = retryTrace ⟨since, currency, cfg.pageSize, full.length * cfg.pageSize⟩
          cfg.backoffMs 1 init.length) ∧
    (∃ fin, main service cfg since currency s = some fin ∧
        fin.out = Except.error last ∧ fin.run.result = Except.error last ∧
        fin.run.folded = full ∧ fin.run.fetches.length = full.length + 1) := by
  have hl := fetchPageLoop_exhaust service
    ⟨since, currency, cfg.pageSize, full.length * cfg.pageSize⟩ cfg.retries cfg.backoffMs last
    init 1 (cfg.retries.toNat + 1) s1 (by omega) (by omega) hfail
  have hsl : sleeps (retryTrace ⟨since, currency, cfg.pageSize, full.length * cfg.pageSize⟩
      cfg.backoffMs 1 init.length) =
      (List.range init.length).map (fun i => cfg.backoffMs * (i + 1)) := by
    simp only [sleeps_retryTrace, Nat.add_comm 1]
  refine ⟨⟨_, hl, rfl, attempts_retryTrace _ _ _ _, ?_, hsl, rfl⟩, ?_⟩
  · simp only [hsl, List.length_map, List.length_range]
  · have hl' : fetchPage service cfg.retries cfg.backoffMs
        ⟨since, currency, cfg.pageSize, 0 + full.length * cfg.pageSize⟩ s1 =
        some ⟨Except.error last,
          stateAfter service ⟨since, currency, cfg.pageSize, full.length * cfg.pageSize⟩
            (init.length + 1) s1,
          retryTrace ⟨since, currency, cfg.pageSize, full.length * cfg.pageSize⟩
            cfg.backoffMs 1 init.length⟩ := by
      rw [Nat.zero_add]; exact hl
    have hstep := pagingLoop_error (fetchPage service cfg.retries cfg.backoffMs) cfg since
      currency (cfg.maxPages - full.length) (0 + full.length * cfg.pageSize) (0 + full.length)
      (foldPages Acc.empty full) s1 _ last hl' rfl
    have hc : full = [] ∨ 0 + full.length < cfg.maxPages := by
      rcases Nat.eq_zero_or_pos full.length with h | h
      · exact Or.inl (List.length_eq_zero.mp h)
      · right
        rcases le_total 1 cfg.maxPages with h1 | h1
        · rw [max_eq_right h1] at hcount; omega
        · rw [max_eq_left h1] at hcount; omega
    have hle : full.length ≤ cfg.maxPages := by
      rcases hc with h | h
      · simp [h]
      · omega
    obtain ⟨r1, hr1, hres1, hfet1, hfold1, -⟩ :=
      pagingLoop_full (fetchPage service cfg.retries cfg.backoffMs) cfg since currency s1
        (cfg.maxPages - full.length + 1) _ full 0 0 Acc.empty s hserve hfull hc hstep
    have hfuel : cfg.maxPages - full.length + 1 + full.length = cfg.maxPages + 1 := by omega
    rw [hfuel] at hr1
    simp only at hres1 hfet1 hfold1
    refine ⟨⟨Except.error last, r1⟩, ?_, rfl, hres1, ?_, ?_⟩
    · simp only [main, mainWith, hr1, hres1]
    · simpa using hfold1
    · rw [hfet1]; simp [pageParams]

/-- C9 (end-to-end example).  When the first fetch returns the page
`[{amount 10, sender A, receiver B}, {amount 5, sender B, receiver A}]` and the
page size is at least 3, `main` performs that one fetch, folds that one page and
ends with the graph of nodes `A` and `B`, both of value 15, and edges `A->B`
(value 10, count 1) and `B->A` (value 5, count 1), in this order. -/
theorem end_to_end (fetch : Params → σ → Option (Fetched σ α)) (cfg : Config)
    (since currency : String) (s : σ) (f : Fetched σ α) (hsize : 3 ≤ cfg.pageSize)
    (hf : fetch ⟨since, currency, cfg.pageSize, 0⟩ s = some f)
    (hres : f.result = Except.ok (some examplePage)) :
    ∃ fin, mainWith fetch cfg since currency s = some fin ∧
      fin.run.fetches = [⟨since, currency, cfg.pageSize, 0⟩] ∧
      fin.run.folded = [examplePage] ∧
      fin.out = Except.ok
        ⟨[⟨"A", "A", 15⟩, ⟨"B", "B", 15⟩], [⟨"A", "B", 10, 1⟩, ⟨"B", "A", 5, 1⟩]⟩ := by
  have h0 : ¬ (examplePage : Page α).length = 0 := by simp [examplePage]
  have hshort : (examplePage : Page α).length < cfg.pageSize := by
    simp only [examplePage, List.length_cons, List.length_nil]; omega
  have hg : buildGraph (foldPage Acc.empty (examplePage : Page α)) = exampleGraph :=
    buildGraph_examplePage
  rw [exampleGraph] at hg
  by_cases h1 : 0 + 1 ≥ cfg.maxPages
  · refine ⟨⟨_, ⟨Except.ok (StopReason.maxPages, foldPage Acc.empty examplePage),
      [⟨since, currency, cfg.pageSize, 0⟩], [examplePage], f.state, f.trace⟩⟩, ?_, rfl, rfl, rfl⟩
    simp only [mainWith, pagingLoop, hf, hres, if_neg h0, if_pos h1, hg]
  · refine ⟨⟨_, ⟨Except.ok (StopReason.shortPage, foldPage Acc.empty examplePage),
      [⟨since, currency, cfg.pageSize, 0⟩], [examplePage], f.state, f.trace⟩⟩, ?_, rfl, rfl, rfl⟩
    simp only [mainWith, pagingLoop, hf, hres, if_neg h0, if_neg h1, if_pos hshort, hg]

end DriverTheorems


/-! ## Witnesses for the reducer and the driver -/

/-- C1, witness: the edge `A->B` of the graph of `examplePage`. -/
theorem referential_closure_witness :
    (⟨"A", "B", 10, 1⟩ : Link ℤ) ∈ (buildGraph (foldPages Acc.empty [examplePage])).links ∧
    (∃ n ∈ (buildGraph (foldPages Acc.empty ([examplePage] : List (Page ℤ)))).nodes,
      n.id = "A") ∧
    (∃ n ∈ (buildGraph (foldPages Acc.empty ([examplePage] : List (Page ℤ)))).nodes,
      n.id = "B") :=
  ⟨by decide, referential_closure [examplePage] ⟨"A", "B", 10, 1⟩ (by decide)⟩

/-- C2, witness: two accumulated nodes, two output nodes. -/
theorem cap_respected_witness :
    exampleAcc.nodeValueUSD.length ≤ 300 ∧
    (buildGraph exampleAcc).nodes.length = exampleAcc.nodeValueUSD.length :=
  ⟨by decide, ((cap_respected exampleAcc).2.2 (by decide)).1⟩

/-- C7, witness: two failures then a success with `retries = 5` and
`backoffMs = 800` give three attempts and the delays `800 * 1`, `800 * 2`. -/
theorem retry_then_success_witness :
    ((["timeout", "errors"].length : Int) < 5) ∧
    responses scripted someParams 3 twoFailures =
      ["timeout", "errors"].map Response.failure ++ [Response.items (some examplePage)] ∧
    ∃ r, fetchPage scripted 5 800 someParams twoFailures = some r ∧
      r.result = Except.ok (some examplePage) ∧
      r.state = stateAfter scripted someParams 3 twoFailures ∧
      attempts r.trace = 3 ∧
      sleeps r.trace = [800 * 1, 800 * 2] ∧
      r.trace = retryTrace someParams 800 1 2 :=
  ⟨by decide, by decide,
    retry_then_success scripted 5 800 someParams twoFailures ["timeout", "errors"]
      (some examplePage) (by decide) (by decide)⟩

/-- C6, witness: pages of 100, 100 and 40 records with page size 100 and
`maxPages = 5` give exactly 3 fetches and the short-page stop. -/
theorem short_page_stop_witness :
    1 ≤ fivePages.pageSize ∧ [fullPage, fullPage].length + 1 < fivePages.maxPages ∧
    (∀ p ∈ [fullPage, fullPage], p.length = fivePages.pageSize) ∧
    lastPage ≠ [] ∧ lastPage.length < fivePages.pageSize ∧
    ∃ fin, main scripted fivePages "2025-09-24" "USDC" threePages = some fin ∧
      fin.run.fetches = pageParams fivePages "2025-09-24" "USDC" 0 3 ∧
      fin.run.fetches.length = 3 ∧
      fin.run.folded = [fullPage, fullPage, lastPage] ∧
      fin.run.result =
        Except.ok (StopReason.shortPage, foldPages Acc.empty [fullPage, fullPage, lastPage]) ∧
      fin.out = Except.ok (buildGraph (foldPages Acc.empty [fullPage, fullPage, lastPage])) :=
  ⟨by decide, by decide, by decide, by decide, by decide,
    short_page_stop (fetchPage scripted fivePages.retries fivePages.backoffMs) fivePages
      "2025-09-24" "USDC" threePages [] [fullPage, fullPage] lastPage (by decide) (by decide)
      (by decide) (by decide) (by decide) ⟨_, rfl, rfl, _, rfl, rfl, _, rfl, rfl, rfl⟩⟩

/-- C8, witness: against a service that fails every request, `main` with the
constants of the source ends with the error after one call of `fetchPage`. -/
theorem retry_exhaustion_witness :
    ((["down", "down", "down", "down"].length : Int) + 1 = defaultConfig.retries) ∧
    responses down ⟨"2025-09-24", "USDC", 100, 0⟩ 5 () =
      (["down", "down", "down", "down"] ++ ["down"]).map Response.failure ∧
    ∃ fin, main down defaultConfig "2025-09-24" "USDC" () = some fin ∧
      fin.out = Except.error "down" ∧ fin.run.result = Except.error "down" ∧
      fin.run.folded = [] ∧ fin.run.fetches.length = 1 :=
  ⟨by decide, by decide,
    (retry_exhaustion down defaultConfig "2025-09-24" "USDC" () () []
      ["down", "down", "down", "down"] "down" (by decide) (by decide) (by decide) rfl
      (by decide)).2⟩

/-- C9, witness: the scripted service answering with `examplePage`, page size 100. -/
theorem end_to_end_witness :
    3 ≤ defaultConfig.pageSize ∧
    ∃ fin, main scripted defaultConfig "2025-09-24" "USDC" [Response.items (some examplePage)] =
        some fin ∧
      fin.run.fetches = [⟨"2025-09-24", "USDC", 100, 0⟩] ∧
      fin.run.folded = [examplePage] ∧
      fin.out = Except.ok
        ⟨[⟨"A", "A", 15⟩, ⟨"B", "B", 15⟩], [⟨"A", "B", 10, 1⟩, ⟨"B", "A", 5, 1⟩]⟩ :=
  ⟨by decide,
    end_to_end (fetchPage scripted defaultConfig.retries defaultConfig.backoffMs) defaultConfig
      "2025-09-24" "USDC" [Response.items (some examplePage)]
      ⟨Except.ok (some examplePage), [], [Event.request 1 ⟨"2025-09-24", "USDC", 100, 0⟩]⟩
      (by decide) rfl rfl⟩

/-! ## The key and its split -/

/-- A string without `->` is not cut. -/
theorem splitArrowChars_of_noArrow (r : List Char) (h : hasArrowChars r = false) :
    splitArrowChars r = [r] := by
  induction r with
  | nil => rfl
  | cons c t ih =>
    have iht := ih (hasArrowChars_tail h)
    cases t with
    | nil => rfl
    | cons d rest =>
      simp only [hasArrowChars, Bool.or_eq_false_iff, decide_eq_false_iff_not] at h
      rw [splitArrowChars, if_neg h.1, iht]
      rfl

/-- Splitting the key of a pair whose sender has no `->`: the sender, then the
parts of the receiver. -/
theorem splitArrow_edgeKey (s r : String) (hs : hasArrow s = false) :
    splitArrow (edgeKey s r) = s :: splitArrow r := by
  simp only [splitArrow, edgeKey_data, splitArrowChars_append s.data r.data hs, List.map_cons]

/-- Splitting the key of a pair without `->` gives back the pair. -/
theorem splitArrow_edgeKey_pair (s r : String) (hs : hasArrow s = false)
    (hr : hasArrow r = false) : splitArrow (edgeKey s r) = [s, r] := by
  rw [splitArrow_edgeKey s r hs, splitArrow, splitArrowChars_of_noArrow r.data hr]
  rfl

/-- C19 (key round trip).  For every sender `s` and receiver `r` that do not
contain `->`, splitting the key `s->r` on `->` gives exactly the two parts `s`
and `r`, so the edge built from an entry under that key has source `s` and target
`r`; and there are a sender and a receiver, one of them containing `->`, for
which the first two parts of the split differ from the pair. -/
theorem key_round_trip :
    (∀ s r : String, hasArrow s = false → hasArrow r = false →
      splitArrow (edgeKey s r) = [s, r]) ∧
    (∀ (s r : String) (allowed : List String) (v : ℤ) (linkCount : JsMap Nat),
      hasArrow s = false → hasArrow r = false → s ∈ allowed → r ∈ allowed →
      buildLinks allowed [(edgeKey s r, v)] linkCount =
        [⟨s, r, v, total linkCount (edgeKey s r)⟩]) ∧
    (∃ s r source target rest, splitArrow (edgeKey s r) = source :: target :: rest ∧
      (source, target) ≠ (s, r)) := by
  refine ⟨splitArrow_edgeKey_pair, ?_, ⟨"a->b", "c", "a", "b", ["c"], by decide, by decide⟩⟩
  intro s r allowed v linkCount hs hr hsa hra
  simp [buildLinks, splitArrow_edgeKey_pair s r hs hr, hsa, hra, total]

/-- C19, witness: the key `A->B`. -/
theorem key_round_trip_witness :
    hasArrow "A" = false ∧ hasArrow "B" = false ∧ splitArrow (edgeKey "A" "B") = ["A", "B"] :=
  ⟨by decide, by decide, key_round_trip.1 "A" "B" (by decide) (by decide)⟩

/-- C12, counterexample.  The pairs (`a->b`, `c`) and (`a`, `b->c`) are different
and have the same key. -/
theorem edge_key_unique_counterexample :
    edgeKey "a->b" "c" = edgeKey "a" "b->c" ∧ ¬ ("a->b" = "a" ∧ "c" = "b->c") := by decide

/-- C12 (edge key uniqueness, amended).  For senders `s`, `s1` that do not
contain `->` and any receivers, the keys `s->r` and `s1->r1` are equal if and
only if `s = s1` and `r = r1`; so two records whose resolved senders do not
contain `->` share an edge accumulator entry if and only if they have the same
resolved sender and the same resolved receiver. -/
theorem edge_key_unique {α : Type} [LinearOrderedRing α] :
    (∀ s r s1 r1 : String, hasArrow s = false → hasArrow s1 = false →
      (edgeKey s r = edgeKey s1 r1 ↔ s = s1 ∧ r = r1)) ∧
    (∀ t t1 : TransferRecord α, hasArrow (senderOf t) = false →
      hasArrow (senderOf t1) = false →
      (keyOf t = keyOf t1 ↔ senderOf t = senderOf t1 ∧ receiverOf t = receiverOf t1)) := by
  have h : ∀ s r s1 r1 : String, hasArrow s = false → hasArrow s1 = false →
      (edgeKey s r = edgeKey s1 r1 ↔ s = s1 ∧ r = r1) := by
    intro s r s1 r1 hs hs1
    constructor
    · exact edgeKey_inj hs hs1
    · rintro ⟨rfl, rfl⟩; rfl
  exact ⟨h, fun t t1 ht ht1 => h _ _ _ _ ht ht1⟩

/-- C12, witness: the keys of the two records of `examplePage`. -/
theorem edge_key_unique_witness :
    hasArrow "A" = false ∧ hasArrow "B" = false ∧
    (edgeKey "A" "B" = edgeKey "B" "A" ↔ "A" = "B" ∧ "B" = "A") :=
  ⟨by decide, by decide,
    (@edge_key_unique ℤ _).1 "A" "B" "B" "A" (by decide) (by decide)⟩

/-! ## Ranking and pruning -/

theorem buildNodes_eq {α : Type} [LinearOrderedRing α] (m : JsMap α) :
    buildNodes m = ((m.map toNode).insertionSort (fun a b => b.value ≤ a.value)).take 300 := rfl

theorem buildLinks_eq {α : Type} (allowed : List String) (m : JsMap α) (linkCount : JsMap Nat) :
    buildLinks allowed m linkCount = m.filterMap (linkOfEntry allowed linkCount) := rfl

theorem buildGraph_eq {α : Type} [LinearOrderedRing α] (acc : Acc α) :
    buildGraph acc = ⟨buildNodes acc.nodeValueUSD, pruneLinks (survivors acc)⟩ := rfl

/-- The first `n` of a list sorted descending by a value are a selection of the
list, and what is left out is nowhere above what is kept. -/
theorem take_insertionSort_top {α β : Type} [LinearOrderedRing α] (f : β → α) (n : Nat)
    (l : List β) :
    ((l.insertionSort (fun a b => f b ≤ f a)).take n).length = min n l.length ∧
    ∃ dropped, (((l.insertionSort (fun a b => f b ≤ f a)).take n) ++ dropped).Perm l ∧
      ∀ d ∈ dropped, ∀ x ∈ (l.insertionSort (fun a b => f b ≤ f a)).take n, f d ≤ f x := by
  haveI : IsTotal β (fun a b => f b ≤ f a) := ⟨fun a b => le_total (f b) (f a)⟩
  haveI : IsTrans β (fun a b => f b ≤ f a) := ⟨fun a b c hab hbc => le_trans hbc hab⟩
  have hs := List.sorted_insertionSort (fun a b => f b ≤ f a) l
  refine ⟨by simp [List.length_take, List.length_insertionSort],
    (l.insertionSort (fun a b => f b ≤ f a)).drop n, ?_, ?_⟩
  · rw [List.take_append_drop]
    exact List.perm_insertionSort _ _
  · intro d hd x hx
    have hp : List.Pairwise (fun a b => f b ≤ f a)
        ((l.insertionSort (fun a b => f b ≤ f a)).take n ++
          (l.insertionSort (fun a b => f b ≤ f a)).drop n) := by
      rw [List.take_append_drop]; exact hs
    exact (List.pairwise_append.mp hp).2.2 x hx d hd

/-- C11 (top-N selection).  For all accumulators, the output nodes are
`min 300 (number of accumulated entries)` of the accumulated entries, each as
`{ id, label: id, value }` with its accumulated total, and every accumulated
entry left out has a total less than or equal to the value of every output node;
likewise the output edges are `min 1000 (number of surviving edges)` of the
edges that pass the endpoint filter, and every surviving edge left out has a
value less than or equal to that of every output edge. -/
theorem top_n_selection {α : Type} [LinearOrderedRing α] (acc : Acc α) :
    (buildGraph acc).nodes.length = min 300 acc.nodeValueUSD.length ∧
    (∃ dropped, ((buildGraph acc).nodes ++ dropped).Perm (acc.nodeValueUSD.map toNode) ∧
      ∀ d ∈ dropped, ∀ n ∈ (buildGraph acc).nodes, d.value ≤ n.value) ∧
    (∀ e ∈ acc.nodeValueUSD, e.1 ∉ (buildGraph acc).nodes.map (fun n => n.id) →
      ∀ n ∈ (buildGraph acc).nodes, e.2 ≤ n.value) ∧
    (buildGraph acc).links.length = min 1000 (survivors acc).length ∧
    (∃ dropped, ((buildGraph acc).links ++ dropped).Perm (survivors acc) ∧
      ∀ d ∈ dropped, ∀ l ∈ (buildGraph acc).links, d.value ≤ l.value) := by
  obtain ⟨hn1, dn, hn2, hn3⟩ :=
    take_insertionSort_top (fun n : Node α => n.value) 300 (acc.nodeValueUSD.map toNode)
  obtain ⟨hl1, dl, hl2, hl3⟩ :=
    take_insertionSort_top (fun l : Link α => l.value) 1000 (survivors acc)
  rw [List.length_map] at hn1
  rw [buildGraph_eq]
  refine ⟨hn1, ⟨dn, hn2, hn3⟩, ?_, hl1, ⟨dl, hl2, hl3⟩⟩
  intro e he hid n hn
  have hmem : toNode e ∈ buildNodes acc.nodeValueUSD ++ dn :=
    hn2.mem_iff.mpr (List.mem_map.mpr ⟨e, he, rfl⟩)
  rcases List.mem_append.mp hmem with h | h
  · exact absurd (List.mem_map.mpr ⟨toNode e, h, rfl⟩) hid
  · exact hn3 (toNode e) h n hn

/-! ## The endpoint filter -/

/-- The edge of an entry whose key is `s->r`, neither containing `->`. -/
theorem linkOfEntry_plain {α : Type} (allowed : List String) (linkCount : JsMap Nat)
    (s r : String) (v : α) (hs : hasArrow s = false) (hr : hasArrow r = false) :
    linkOfEntry allowed linkCount (edgeKey s r, v) =
      if s ∈ allowed ∧ r ∈ allowed then some ⟨s, r, v, total linkCount (edgeKey s r)⟩
      else none := by
  simp only [linkOfEntry, splitArrow_edgeKey_pair s r hs hr, total]
  by_cases h1 : s ∈ allowed <;> by_cases h2 : r ∈ allowed <;> simp [h1, h2]

/-- Every edge built comes from an entry: it carries the entry's value and the
count under the entry's key, and its ends are allowed. -/
theorem mem_buildLinks {α : Type} (allowed : List String) (m : JsMap α) (linkCount : JsMap Nat)
    {l : Link α} (h : l ∈ buildLinks allowed m linkCount) :
    ∃ e ∈ m, l.value = e.2 ∧ l.count = total linkCount e.1 ∧
      l.source ∈ allowed ∧ l.target ∈ allowed ∧
      ∃ rest, splitArrow e.1 = l.source :: l.target :: rest := by
  rw [buildLinks_eq, List.mem_filterMap] at h
  obtain ⟨e, he, hl⟩ := h
  refine ⟨e, he, ?_⟩
  unfold linkOfEntry at hl
  split at hl
  · next source target rest hsplit =>
    split at hl
    · exact absurd hl (by simp)
    · next hnot =>
      rw [not_or, not_not, not_not] at hnot
      cases hl
      exact ⟨rfl, rfl, hnot.1, hnot.2, rest, hsplit⟩
  · exact absurd hl (by simp)

/-- With plain keys, the edges built are those of a selection of the entries, in
the order of the entries. -/
theorem buildLinks_keys_sublist {α : Type} (allowed : List String) (linkCount : JsMap Nat) :
    ∀ (m : JsMap α), PlainKeys m →
      ((buildLinks allowed m linkCount).map (fun l => edgeKey l.source l.target)).Sublist
        (JsMap.keys m) := by
  intro m
  induction m with
  | nil => intro _; simp [buildLinks, JsMap.keys]
  | cons e rest ih =>
    intro hp
    have hrest : PlainKeys rest := fun x hx => hp x (List.mem_cons_of_mem _ hx)
    obtain ⟨s, r, hs, hr, hk⟩ := hp e (List.mem_cons_self _ _)
    have he : e = (edgeKey s r, e.2) := by rw [← hk]
    have ih' := ih hrest
    rw [buildLinks_eq] at ih' ⊢
    rw [List.filterMap_cons, he, linkOfEntry_plain allowed linkCount s r e.2 hs hr]
    by_cases h : s ∈ allowed ∧ r ∈ allowed
    · simp only [if_pos h, List.map_cons, JsMap.keys]
      exact List.Sublist.cons₂ _ ih'
    · simp only [if_neg h, JsMap.keys, List.map_cons]
      exact List.Sublist.cons _ ih'

/-- C16, counterexample.  After folding `misattributedPage` all four addresses
are retained: the accumulated pair (`a->b`, `c`) has both ends retained and no
edge, and the pair (`a`, `b`) has two edges, one of them carrying the total of
the pair (`a->b`, `c`). -/
theorem edge_filter_counterexample :
    retained (foldPage Acc.empty misattributedPage) = ["a->b", "c", "a", "b"] ∧
    pairCount "a->b" "c" misattributedPage = 1 ∧
    survivors (foldPage Acc.empty misattributedPage) = [⟨"a", "b", 10, 1⟩, ⟨"a", "b", 5, 1⟩] := by
  decide

/-- C16 (edge filter completeness, amended).  For all accumulators, every entry
of the edge map whose key is `s->r`, with neither `s` nor `r` containing `->`
and both retained, has its edge in the list before truncation, with source `s`,
target `r`, the accumulated total as value and the accumulated count as count.
When every key of the edge map is of that form, every edge before truncation is
the edge of such an entry with both ends retained, the edges are those of a
selection of the entries in the order of the entries (so distinct keys give at
most one edge for a pair), and when at most 1000 edges pass the filter each of
them is in the output. -/
theorem edge_filter_complete {α : Type} [LinearOrderedRing α] (acc : Acc α) :
    (∀ s r v, hasArrow s = false → hasArrow r = false →
      (edgeKey s r, v) ∈ acc.linkValueUSD → s ∈ retained acc → r ∈ retained acc →
      (⟨s, r, v, total acc.linkCount (edgeKey s r)⟩ : Link α) ∈ survivors acc) ∧
    (PlainKeys acc.linkValueUSD →
      (∀ l ∈ survivors acc,
        (edgeKey l.source l.target, l.value) ∈ acc.linkValueUSD ∧
        l.count = total acc.linkCount (edgeKey l.source l.target) ∧
        l.source ∈ retained acc ∧ l.target ∈ retained acc) ∧
      ((survivors acc).map (fun l => edgeKey l.source l.target)).Sublist
        (JsMap.keys acc.linkValueUSD) ∧
      ((JsMap.keys acc.linkValueUSD).Nodup →
        ((survivors acc).map (fun l => edgeKey l.source l.target)).Nodup)) ∧
    ((survivors acc).length ≤ 1000 → ∀ l ∈ survivors acc, l ∈ (buildGraph acc).links) := by
  refine ⟨?_, fun hp => ⟨?_, ?_, ?_⟩, ?_⟩
  · intro s r v hs hr hmem hsa hra
    rw [survivors, buildLinks_eq, List.mem_filterMap]
    refine ⟨(edgeKey s r, v), hmem, ?_⟩
    rw [linkOfEntry_plain _ _ s r v hs hr, if_pos ⟨hsa, hra⟩]
  · intro l hl
    obtain ⟨e, he, hv, hc, hsa, hta, rest, hsplit⟩ := mem_buildLinks _ _ _ hl
    obtain ⟨s, r, hs, hr, hk⟩ := hp e he
    rw [hk, splitArrow_edgeKey_pair s r hs hr] at hsplit
    have h1 : s = l.source := (List.cons.inj hsplit).1
    have h2 : r = l.target := (List.cons.inj (List.cons.inj hsplit).2).1
    have hkey : e.1 = edgeKey l.source l.target := by rw [hk, h1, h2]
    refine ⟨?_, ?_, hsa, hta⟩
    · rw [← hkey, hv]; exact he
    · rw [← hkey]; exact hc
  · exact buildLinks_keys_sublist _ _ _ hp
  · intro hnd
    exact (buildLinks_keys_sublist _ _ _ hp).nodup hnd
  · intro hlen l hl
    rw [buildGraph_eq]
    show l ∈ pruneLinks (survivors acc)
    unfold pruneLinks
    rw [List.take_of_length_le (by rw [List.length_insertionSort]; exact hlen)]
    exact (List.perm_insertionSort _ _).mem_iff.mpr hl

/-- C16, witness: the accumulators of `examplePage` have plain keys, and the
entry `A->B` has its edge before truncation and in the output. -/
theorem edge_filter_complete_witness :
    hasArrow "A" = false ∧ hasArrow "B" = false ∧
    (edgeKey "A" "B", (10 : ℤ)) ∈ exampleAcc.linkValueUSD ∧
    "A" ∈ retained exampleAcc ∧ "B" ∈ retained exampleAcc ∧
    (⟨"A", "B", 10, total exampleAcc.linkCount (edgeKey "A" "B")⟩ : Link ℤ) ∈
      survivors exampleAcc ∧
    (survivors exampleAcc).length ≤ 1000 ∧
    (∀ l ∈ survivors exampleAcc, l ∈ (buildGraph exampleAcc).links) ∧
    PlainKeys exampleAcc.linkValueUSD ∧
    ((survivors exampleAcc).map (fun l => edgeKey l.source l.target)).Sublist
      (JsMap.keys exampleAcc.linkValueUSD) :=
  ⟨by decide, by decide, by decide, by decide, by decide,
    (edge_filter_complete exampleAcc).1 "A" "B" 10 (by decide) (by decide) (by decide)
      (by decide) (by decide),
    by decide, (edge_filter_complete exampleAcc).2.2 (by decide),
    (fun e he => by
      rcases List.mem_cons.mp he with h | h
      · exact ⟨"A", "B", by decide, by decide, by rw [h]; decide⟩
      · rcases List.mem_cons.mp h with h | h
        · exact ⟨"B", "A", by decide, by decide, by rw [h]; decide⟩
        · exact absurd h (List.not_mem_nil _)),
    ((edge_filter_complete exampleAcc).2.1 (fun e he => by
      rcases List.mem_cons.mp he with h | h
      · exact ⟨"A", "B", by decide, by decide, by rw [h]; decide⟩
      · rcases List.mem_cons.mp h with h | h
        · exact ⟨"B", "A", by decide, by decide, by rw [h]; decide⟩
        · exact absurd h (List.not_mem_nil _))).2.1⟩

/-! ## Insertion order and stability -/

theorem JsMap.keys_set {V : Type} (m : JsMap V) (k : String) (v : V) :
    JsMap.keys (JsMap.set m k v) = if k ∈ JsMap.keys m then JsMap.keys m
      else JsMap.keys m ++ [k] := by
  induction m with
  | nil => simp [JsMap.set, JsMap.keys]
  | cons e rest ih =>
    obtain ⟨k0, w⟩ := e
    by_cases h0 : k0 = k
    · subst h0
      simp [JsMap.set, JsMap.keys]
    · have h0' : ¬ k = k0 := fun h => h0 h.symm
      simp only [JsMap.keys] at ih
      by_cases hm : k ∈ rest.map Prod.fst
      · simp [JsMap.set, JsMap.keys, h0, h0', ih, hm]
      · simp [JsMap.set, JsMap.keys, h0, h0', ih, hm]

theorem keys_add {V : Type} [Zero V] [Add V] (m : JsMap V) (k : String) (d : V) :
    JsMap.keys (add m k d) = if k ∈ JsMap.keys m then JsMap.keys m else JsMap.keys m ++ [k] :=
  JsMap.keys_set m k _

/-- The keys after a list of updates depend only on the keys before and on the
keys of the updates. -/
theorem keys_addAll {V : Type} [Zero V] [Add V] (l : List (String × V)) (m : JsMap V) :
    JsMap.keys (addAll m l) =
      (l.map Prod.fst).foldl (fun seen k => if k ∈ seen then seen else seen ++ [k])
        (JsMap.keys m) := by
  induction l generalizing m with
  | nil => rfl
  | cons e rest ih =>
    have hstep : addAll m (e :: rest) = addAll (add m e.1 e.2) rest := rfl
    rw [hstep, ih, keys_add]
    rfl

theorem foldPages_eq_flatten {α : Type} [LinearOrderedRing α] (pages : List (Page α))
    (acc : Acc α) : foldPages acc pages = foldPage acc pages.flatten := by
  induction pages generalizing acc with
  | nil => rfl
  | cons p ps ih =>
    have hstep : foldPages acc (p :: ps) = foldPages (foldPage acc p) ps := rfl
    rw [hstep, ih, List.flatten_cons]
    simp [foldPage, List.foldl_append]

/-- Inserting into a list keeps, for each value, the inserted element ahead of
the elements of that value. -/
theorem filter_orderedInsert {α β : Type} [LinearOrderedRing α] (f : β → α) (v : α) (a : β)
    (l : List β) :
    (List.orderedInsert (fun x y => f y ≤ f x) a l).filter (fun x => f x = v) =
      (a :: l).filter (fun x => f x = v) := by
  induction l with
  | nil => rfl
  | cons b rest ih =>
    rw [List.orderedInsert]
    by_cases h : f b ≤ f a
    · rw [if_pos h]
    · rw [if_neg h, List.filter_cons, ih]
      have hlt : f a < f b := lt_of_not_le h
      by_cases hb : f b = v
      · have ha : ¬ f a = v := fun ha => by rw [ha, hb] at hlt; exact lt_irrefl _ hlt
        simp [List.filter_cons, hb, ha]
      · simp [List.filter_cons, hb]

/-- The sort is stable: for each value, the elements of that value keep their
order. -/
theorem filter_insertionSort {α β : Type} [LinearOrderedRing α] (f : β → α) (v : α)
    (l : List β) :
    (l.insertionSort (fun x y => f y ≤ f x)).filter (fun x => f x = v) =
      l.filter (fun x => f x = v) := by
  induction l with
  | nil => rfl
  | cons a rest ih =>
    rw [List.insertionSort, filter_orderedInsert, List.filter_cons, List.filter_cons, ih]

theorem filter_take_insertionSort {α β : Type} [LinearOrderedRing α] (f : β → α) (v : α)
    (n : Nat) (l : List β) :
    (((l.insertionSort (fun x y => f y ≤ f x)).take n).filter (fun x => f x = v)) <+:
      (l.filter (fun x => f x = v)) := by
  have h := (List.take_prefix n (l.insertionSort (fun x y => f y ≤ f x))).filter
    (fun x => decide (f x = v))
  rw [filter_insertionSort] at h
  exact h

/-- C17 (tie-break by insertion order).  For all accumulators and every value
`v`, the output nodes of value `v` are, in the same order, the first of the
entries of value `v` of the node map in insertion order, and the output edges of
value `v` are, in the same order, the first of the edges of value `v` built from
the entries of the edge map in insertion order: the sort is stable.  After
folding pages into empty accumulators the insertion order of the node map is the
order of first appearance in the record stream, sender before receiver within a
record, and that of the edge map is the order of first appearance of the keys. -/
theorem tie_break_insertion_order {α : Type} [LinearOrderedRing α] :
    (∀ (acc : Acc α) (v : α),
      ((buildGraph acc).nodes.filter (fun n => n.value = v)) <+:
        ((acc.nodeValueUSD.map toNode).filter (fun n => n.value = v))) ∧
    (∀ (acc : Acc α) (v : α),
      ((buildGraph acc).links.filter (fun l => l.value = v)) <+:
        ((acc.linkValueUSD.filterMap (linkOfEntry (retained acc) acc.linkCount)).filter
          (fun l => l.value = v))) ∧
    (∀ pages : List (Page α),
      JsMap.keys (foldPages Acc.empty pages).nodeValueUSD =
        insertionOrder (pages.flatten.flatMap (fun t => [senderOf t, receiverOf t])) ∧
      JsMap.keys (foldPages Acc.empty pages).linkValueUSD =
        insertionOrder (pages.flatten.map keyOf)) := by
  refine ⟨fun acc v => ?_, fun acc v => ?_, fun pages => ?_⟩
  · exact filter_take_insertionSort (fun n : Node α => n.value) v 300 _
  · exact filter_take_insertionSort (fun l : Link α => l.value) v 1000 _
  · rw [foldPages_eq_flatten, foldPage_eq]
    constructor
    · show JsMap.keys (addAll [] (nodeUpdates pages.flatten)) = _
      rw [keys_addAll, insertionOrder]
      congr 1
      simp [nodeUpdates, List.map_flatMap]
    · show JsMap.keys (addAll [] (linkUpdates pages.flatten)) = _
      rw [keys_addAll, insertionOrder]
      congr 1
      simp only [linkUpdates, List.map_map]
      rfl

/-! ## Balance and sign of the accumulators -/

theorem sumValues_add {V : Type} [AddCommMonoid V] (m : JsMap V) (k : String) (d : V) :
    sumValues (add m k d) = sumValues m + d := by
  induction m with
  | nil => simp [add, sumValues, JsMap.set, JsMap.get]
  | cons e rest ih =>
    obtain ⟨k0, w⟩ := e
    by_cases h0 : k0 = k
    · subst h0
      simp only [add, sumValues, JsMap.set, JsMap.get, if_true, Option.getD_some, List.map_cons,
        List.sum_cons]
      rw [add_right_comm]
    · have hstep : add ((k0, w) :: rest) k d = (k0, w) :: add rest k d := by
        simp [add, JsMap.set, JsMap.get, h0]
      rw [hstep]
      simp only [sumValues, List.map_cons, List.sum_cons] at ih ⊢
      rw [ih, add_assoc]

theorem sumValues_addAll {V : Type} [AddCommMonoid V] (l : List (String × V)) (m : JsMap V) :
    sumValues (addAll m l) = sumValues m + (l.map Prod.snd).sum := by
  induction l generalizing m with
  | nil => simp [addAll]
  | cons e rest ih =>
    have hstep : addAll m (e :: rest) = addAll (add m e.1 e.2) rest := rfl
    rw [hstep, ih, sumValues_add, List.map_cons, List.sum_cons, add_assoc]

theorem sum_nodeUpdates {α : Type} [LinearOrderedRing α] (page : Page α) :
    ((nodeUpdates page).map Prod.snd).sum = 2 * ((linkUpdates page).map Prod.snd).sum := by
  induction page with
  | nil => simp [nodeUpdates, linkUpdates]
  | cons t rest ih =>
    simp only [nodeUpdates, linkUpdates, List.flatMap_cons, List.map_append, List.map_cons,
      List.sum_append, List.sum_cons, List.map_nil, List.sum_nil] at ih ⊢
    rw [ih, add_zero, two_mul, two_mul]
    abel

theorem sum_countUpdates {α : Type} [LinearOrderedRing α] (page : Page α) :
    ((countUpdates page).map Prod.snd).sum = page.length := by
  induction page with
  | nil => rfl
  | cons t rest ih =>
    simp only [countUpdates, List.map_cons, List.sum_cons, List.length_cons] at ih ⊢
    rw [ih, Nat.add_comm]

/-- After folding from empty accumulators the edge-value map and the edge-count
map have the same keys, in the same order. -/
theorem foldPages_keys_eq {α : Type} [LinearOrderedRing α] (pages : List (Page α)) :
    JsMap.keys (foldPages Acc.empty pages).linkValueUSD =
      JsMap.keys (foldPages Acc.empty pages).linkCount := by
  rw [foldPages_eq_flatten, foldPage_eq]
  show JsMap.keys (addAll ([] : JsMap α) (linkUpdates pages.flatten)) =
    JsMap.keys (addAll ([] : JsMap Nat) (countUpdates pages.flatten))
  rw [keys_addAll, keys_addAll]
  simp only [linkUpdates, countUpdates, List.map_map]
  rfl

/-- C18 (accumulator balance).  After folding any sequence of pages into empty
accumulators, the sum of all node totals is twice the sum of all edge totals,
the edge-value map and the edge-count map have the same keys (in the same
order), and the sum of all edge counts is the number of records folded. -/
theorem accumulator_balance {α : Type} [LinearOrderedRing α] (pages : List (Page α)) :
    sumValues (foldPages Acc.empty pages).nodeValueUSD =
      2 * sumValues (foldPages Acc.empty pages).linkValueUSD ∧
    JsMap.keys (foldPages Acc.empty pages).linkValueUSD =
      JsMap.keys (foldPages Acc.empty pages).linkCount ∧
    (∀ k, k ∈ JsMap.keys (foldPages Acc.empty pages).linkValueUSD ↔
      k ∈ JsMap.keys (foldPages Acc.empty pages).linkCount) ∧
    sumValues (foldPages Acc.empty pages).linkCount = (pages.map List.length).sum := by
  have hk := foldPages_keys_eq pages
  refine ⟨?_, hk, fun k => by rw [hk], ?_⟩
  · rw [foldPages_eq_flatten, foldPage_eq]
    show sumValues (addAll [] (nodeUpdates pages.flatten)) =
      2 * sumValues (addAll [] (linkUpdates pages.flatten))
    rw [sumValues_addAll, sumValues_addAll, sum_nodeUpdates]
    simp [sumValues]
  · rw [foldPages_eq_flatten, foldPage_eq]
    show sumValues (addAll [] (countUpdates pages.flatten)) = _
    rw [sumValues_addAll, sum_countUpdates]
    simp [sumValues, List.length_flatten]

theorem JsMap.mem_of_get {V : Type} (m : JsMap V) (k : String) (v : V)
    (h : JsMap.get m k = some v) : (k, v) ∈ m := by
  induction m with
  | nil => simp [JsMap.get] at h
  | cons e rest ih =>
    obtain ⟨k0, w⟩ := e
    by_cases h0 : k0 = k
    · subst h0
      simp only [JsMap.get, if_true, Option.some.injEq] at h
      subst h
      exact List.mem_cons_self _ _
    · simp only [JsMap.get, if_neg h0] at h
      exact List.mem_cons_of_mem _ (ih h)

theorem JsMap.mem_set {V : Type} (m : JsMap V) (k : String) (v : V) (e : String × V)
    (h : e ∈ JsMap.set m k v) : e ∈ m ∨ e = (k, v) := by
  induction m with
  | nil =>
    simp only [JsMap.set, List.mem_singleton] at h
    exact Or.inr h
  | cons e0 rest ih =>
    obtain ⟨k0, w⟩ := e0
    by_cases h0 : k0 = k
    · subst h0
      simp only [JsMap.set, if_true, List.mem_cons] at h
      rcases h with h | h
      · exact Or.inr h
      · exact Or.inl (List.mem_cons_of_mem _ h)
    · simp only [JsMap.set, if_neg h0, List.mem_cons] at h
      rcases h with h | h
      · exact Or.inl (by rw [h]; exact List.mem_cons_self _ _)
      · rcases ih h with h1 | h1
        · exact Or.inl (List.mem_cons_of_mem _ h1)
        · exact Or.inr h1

/-- A lower bound `c ≥ 0` on the values of a map is kept by `add` with a delta of
at least `c`. -/
theorem add_bound {V : Type} [OrderedAddCommMonoid V] (c : V) (hc : 0 ≤ c) (m : JsMap V)
    (k : String) (d : V) (hm : ∀ e ∈ m, c ≤ e.2) (hd : c ≤ d) :
    ∀ e ∈ add m k d, c ≤ e.2 := by
  intro e he
  rcases JsMap.mem_set m k _ e he with h | h
  · exact hm e h
  · rw [h]
    have ht : 0 ≤ (JsMap.get m k).getD 0 := by
      cases hg : JsMap.get m k with
      | none => exact le_refl _
      | some v => exact le_trans hc (hm (k, v) (JsMap.mem_of_get m k v hg))
    calc c = 0 + c := (zero_add c).symm
      _ ≤ (JsMap.get m k).getD 0 + d := add_le_add ht hd

theorem addAll_bound {V : Type} [OrderedAddCommMonoid V] (c : V) (hc : 0 ≤ c)
    (l : List (String × V)) (hl : ∀ e ∈ l, c ≤ e.2) :
    ∀ (m : JsMap V), (∀ e ∈ m, c ≤ e.2) → ∀ e ∈ addAll m l, c ≤ e.2 := by
  induction l with
  | nil => intro m hm; exact hm
  | cons e0 rest ih =>
    intro m hm
    have hstep : addAll m (e0 :: rest) = addAll (add m e0.1 e0.2) rest := rfl
    rw [hstep]
    exact ih (fun e he => hl e (List.mem_cons_of_mem _ he)) _
      (add_bound c hc m e0.1 e0.2 hm (hl e0 (List.mem_cons_self _ _)))

/-- After folding from empty accumulators all totals are non-negative and all
counts are at least 1. -/
theorem foldPages_bounds {α : Type} [LinearOrderedRing α] (pages : List (Page α)) :
    (∀ e ∈ (foldPages Acc.empty pages).nodeValueUSD, 0 ≤ e.2) ∧
    (∀ e ∈ (foldPages Acc.empty pages).linkValueUSD, 0 ≤ e.2) ∧
    (∀ e ∈ (foldPages Acc.empty pages).linkCount, 1 ≤ e.2) := by
  rw [foldPages_eq_flatten, foldPage_eq]
  refine ⟨?_, ?_, ?_⟩
  · apply addAll_bound 0 (le_refl _)
    · intro e he
      simp only [nodeUpdates, List.mem_flatMap, List.mem_cons, List.mem_singleton,
        List.not_mem_nil, or_false] at he
      obtain ⟨t, -, h | h⟩ := he <;> rw [h] <;> exact abs_nonneg _
    · intro e he; exact absurd he (List.not_mem_nil _)
  · apply addAll_bound 0 (le_refl _)
    · intro e he
      simp only [linkUpdates, List.mem_map] at he
      obtain ⟨t, -, h⟩ := he
      rw [← h]; exact abs_nonneg _
    · intro e he; exact absurd he (List.not_mem_nil _)
  · apply addAll_bound 1 (Nat.zero_le _)
    · intro e he
      simp only [countUpdates, List.mem_map] at he
      obtain ⟨t, -, h⟩ := he
      rw [← h]
    · intro e he; exact absurd he (List.not_mem_nil _)

/-- C13 (output record invariants).  After folding any sequence of pages, with
amounts of either sign, every output node has its label equal to its id and a
value of at least 0, and every output edge has a value of at least 0 and a count
of at least 1. -/
theorem output_invariants {α : Type} [LinearOrderedRing α] (pages : List (Page α)) :
    (∀ n ∈ (buildGraph (foldPages Acc.empty pages)).nodes, n.label = n.id ∧ 0 ≤ n.value) ∧
    (∀ l ∈ (buildGraph (foldPages Acc.empty pages)).links, 0 ≤ l.value ∧ 1 ≤ l.count) := by
  obtain ⟨hn, hl, hc⟩ := foldPages_bounds pages
  have hkeys := foldPages_keys_eq pages
  constructor
  · intro n hnode
    have hmem := mem_of_mem_take_insertionSort _ hnode
    obtain ⟨e, he, rfl⟩ := List.mem_map.mp hmem
    exact ⟨rfl, hn e he⟩
  · intro l hlink
    have hmem := mem_of_mem_take_insertionSort _ hlink
    obtain ⟨e, he, hv, hcnt, -, -, -⟩ := mem_buildLinks _ _ _ hmem
    refine ⟨by rw [hv]; exact hl e he, ?_⟩
    have hk : e.1 ∈ JsMap.keys (foldPages Acc.empty pages).linkCount := by
      rw [← hkeys]
      exact List.mem_map.mpr ⟨e, he, rfl⟩
    rw [JsMap.mem_keys_iff] at hk
    cases hg : JsMap.get (foldPages Acc.empty pages).linkCount e.1 with
    | none => rw [hg] at hk; simp at hk
    | some c =>
      rw [hcnt, total, hg]
      exact hc (e.1, c) (JsMap.mem_of_get _ _ _ hg)

/-- C13, witness: the node `A` and the edge `A->B` of the graph of `examplePage`. -/
theorem output_invariants_witness :
    ((⟨"A", "A", 15⟩ : Node ℤ) ∈ (buildGraph (foldPages Acc.empty [examplePage])).nodes) ∧
    ((⟨"A", "B", 10, 1⟩ : Link ℤ) ∈ (buildGraph (foldPages Acc.empty [examplePage])).links) ∧
    ("A" = "A" ∧ (0 : ℤ) ≤ 15) ∧ ((0 : ℤ) ≤ 10 ∧ 1 ≤ 1) :=
  ⟨by decide, by decide,
    (output_invariants [examplePage]).1 ⟨"A", "A", 15⟩ (by decide),
    (output_invariants [examplePage]).2 ⟨"A", "B", 10, 1⟩ (by decide)⟩

/-! ## The paging loop, turn by turn -/

section LoopTheorems

variable {σ α : Type} [LinearOrderedRing α]

/-- The ways one turn of the paging loop can go. -/
theorem pagingLoop_cases (fetch : Params → σ → Option (Fetched σ α)) (cfg : Config)
    (since currency : String) (fuel offset pageCount : Nat) (acc : Acc α) (s : σ) (r : Run σ α)
    (h : pagingLoop fetch cfg since currency (fuel + 1) offset pageCount acc s = some r) :
    ∃ f, fetch ⟨since, currency, cfg.pageSize, offset⟩ s = some f ∧
      ((∃ e, f.result = Except.error e ∧
          r = ⟨Except.error e, [⟨since, currency, cfg.pageSize, offset⟩], [], f.state, f.trace⟩) ∨
       ((f.result = Except.ok none ∨ f.result = Except.ok (some [])) ∧
          r = ⟨Except.ok (StopReason.emptyPage, acc),
            [⟨since, currency, cfg.pageSize, offset⟩], [], f.state, f.trace⟩) ∨
       (∃ p, f.result = Except.ok (some p) ∧ p ≠ [] ∧ pageCount + 1 ≥ cfg.maxPages ∧
          r = ⟨Except.ok (StopReason.maxPages, foldPage acc p),
            [⟨since, currency, cfg.pageSize, offset⟩], [p], f.state, f.trace⟩) ∨
       (∃ p, f.result = Except.ok (some p) ∧ p ≠ [] ∧ pageCount + 1 < cfg.maxPages ∧
          p.length < cfg.pageSize ∧
          r = ⟨Except.ok (StopReason.shortPage, foldPage acc p),
            [⟨since, currency, cfg.pageSize, offset⟩], [p], f.state, f.trace⟩) ∨
       (∃ p r1, f.result = Except.ok (some p) ∧ p ≠ [] ∧ pageCount + 1 < cfg.maxPages ∧
          cfg.pageSize ≤ p.length ∧
          pagingLoop fetch cfg since currency fuel (offset + cfg.pageSize) (pageCount + 1)
            (foldPage acc p) f.state = some r1 ∧
          r = ⟨r1.result, ⟨since, currency, cfg.pageSize, offset⟩ :: r1.fetches, p :: r1.folded,
            r1.state,
            f.trace ++ (if cfg.interPageSleepMs > 0 then [Event.sleep cfg.interPageSleepMs]
              else []) ++ r1.trace⟩)) := by
  rw [pagingLoop] at h
  cases hf : fetch ⟨since, currency, cfg.pageSize, offset⟩ s with
  | none => simp [hf] at h
  | some f =>
    refine ⟨f, rfl, ?_⟩
    simp only [hf] at h
    rcases hres : f.result with e | page
    · simp only [hres, Option.some.injEq] at h
      exact Or.inl ⟨e, rfl, h.symm⟩
    · cases page with
      | none =>
        simp only [hres, Option.some.injEq] at h
        exact Or.inr (Or.inl ⟨Or.inl rfl, h.symm⟩)
      | some p =>
        simp only [hres] at h
        by_cases h0 : p.length = 0
        · simp only [if_pos h0, Option.some.injEq] at h
          have hp : p = [] := List.length_eq_zero.mp h0
          subst hp
          exact Or.inr (Or.inl ⟨Or.inr rfl, h.symm⟩)
        · have hne : p ≠ [] := fun hp => h0 (by rw [hp]; rfl)
          simp only [if_neg h0] at h
          by_cases h1 : pageCount + 1 ≥ cfg.maxPages
          · simp only [if_pos h1, Option.some.injEq] at h
            exact Or.inr (Or.inr (Or.inl ⟨p, rfl, hne, h1, h.symm⟩))
          · simp only [if_neg h1] at h
            by_cases h2 : p.length < cfg.pageSize
            · simp only [if_pos h2, Option.some.injEq] at h
              exact Or.inr (Or.inr (Or.inr (Or.inl ⟨p, rfl, hne, by omega, h2, h.symm⟩)))
            · simp only [if_neg h2] at h
              cases hrec : pagingLoop fetch cfg since currency fuel (offset + cfg.pageSize)
                  (pageCount + 1) (foldPage acc p) f.state with
              | none => simp [hrec] at h
              | some r1 =>
                simp only [hrec, Option.some.injEq] at h
                exact Or.inr (Or.inr (Or.inr (Or.inr
                  ⟨p, r1, rfl, hne, by omega, by omega, hrec, h.symm⟩)))

/-- The paging loop makes at most `max 1 (maxPages - pageCount)` fetches and
folds no more pages than it fetches. -/
theorem pagingLoop_bounds (fetch : Params → σ → Option (Fetched σ α)) (cfg : Config)
    (since currency : String) :
    ∀ (fuel offset pageCount : Nat) (acc : Acc α) (s : σ) (r : Run σ α),
      pagingLoop fetch cfg since currency fuel offset pageCount acc s = some r →
      r.fetches.length + pageCount ≤ max (pageCount + 1) cfg.maxPages ∧
      r.folded.length ≤ r.fetches.length := by
  intro fuel
  induction fuel with
  | zero => intro offset pageCount acc s r h; simp [pagingLoop] at h
  | succ fuel ih =>
    intro offset pageCount acc s r h
    obtain ⟨f, -, hcase⟩ := pagingLoop_cases fetch cfg since currency fuel offset pageCount acc s r h
    rcases hcase with ⟨e, -, rfl⟩ | ⟨-, rfl⟩ | ⟨p, -, -, -, rfl⟩ | ⟨p, -, -, -, -, rfl⟩ |
      ⟨p, r1, -, -, hlt, -, hrec, rfl⟩
    · exact ⟨le_max_of_le_left (by simp only [List.length_cons, List.length_nil]; omega),
        by simp⟩
    · exact ⟨le_max_of_le_left (by simp only [List.length_cons, List.length_nil]; omega),
        by simp⟩
    · exact ⟨le_max_of_le_left (by simp only [List.length_cons, List.length_nil]; omega),
        by simp⟩
    · exact ⟨le_max_of_le_left (by simp only [List.length_cons, List.length_nil]; omega),
        by simp⟩
    · obtain ⟨h1, h2⟩ := ih _ _ _ _ _ hrec
      simp only [List.length_cons]
      refine ⟨?_, by omega⟩
      rw [max_eq_right (by omega)] at h1
      rw [max_eq_right (by omega)]
      omega

end LoopTheorems

section CapTheorems

variable {σ α : Type} [LinearOrderedRing α]

/-- One turn of the paging loop on a non-empty page that reaches the page cap. -/
theorem pagingLoop_cap (fetch : Params → σ → Option (Fetched σ α)) (cfg : Config)
    (since currency : String) (fuel offset pageCount : Nat) (acc : Acc α) (s : σ)
    (f : Fetched σ α) (p : Page α)
    (hf : fetch ⟨since, currency, cfg.pageSize, offset⟩ s = some f)
    (hres : f.result = Except.ok (some p)) (hne : p ≠ [])
    (hcount : pageCount + 1 ≥ cfg.maxPages) :
    pagingLoop fetch cfg since currency (fuel + 1) offset pageCount acc s =
      some ⟨Except.ok (StopReason.maxPages, foldPage acc p),
        [⟨since, currency, cfg.pageSize, offset⟩], [p], f.state, f.trace⟩ := by
  have h0 : ¬ p.length = 0 := fun h => hne (List.length_eq_zero.mp h)
  simp only [pagingLoop, hf, hres, if_neg h0, if_pos hcount]

/-- C14 (page cap).  For every page source that answers every call, whatever it
answers, and every `maxPages ≥ 1`, `main` ends after at most `maxPages` fetches
and folds at most `maxPages` pages; and if the first `maxPages` pages are all
full (of exactly `pageSize ≥ 1` records), it performs exactly `maxPages` fetches,
folds them all and leaves the loop through the page-count `break`. -/
theorem page_cap (fetch : Params → σ → Option (Fetched σ α)) (cfg : Config)
    (since currency : String) (s : σ)
    (hfetch : ∀ params s, ∃ f, fetch params s = some f) (hmax : 1 ≤ cfg.maxPages) :
    (∃ fin, mainWith fetch cfg since currency s = some fin ∧
      fin.run.fetches.length ≤ cfg.maxPages ∧ fin.run.folded.length ≤ cfg.maxPages) ∧
    (∀ (pages : List (Page α)) (s1 : σ), 1 ≤ cfg.pageSize → pages.length = cfg.maxPages →
      (∀ p ∈ pages, p.length = cfg.pageSize) →
      Serves fetch cfg since currency 0 s pages s1 →
      ∃ fin, mainWith fetch cfg since currency s = some fin ∧
        fin.run.fetches.length = cfg.maxPages ∧ fin.run.folded = pages ∧
        fin.run.result = Except.ok (StopReason.maxPages, foldPages Acc.empty pages)) := by
  constructor
  · obtain ⟨r, hr⟩ := pagingLoop_total fetch cfg since currency hfetch cfg.maxPages 0 0
      Acc.empty s (by omega)
    obtain ⟨h1, h2⟩ := pagingLoop_bounds fetch cfg since currency _ _ _ _ _ _ hr
    rw [Nat.add_zero, Nat.zero_add, max_eq_right hmax] at h1
    rcases hres : r.result with e | ⟨stop, acc⟩
    · exact ⟨⟨Except.error e, r⟩, by simp only [mainWith, hr, hres], h1, le_trans h2 h1⟩
    · exact ⟨⟨Except.ok (buildGraph acc), r⟩, by simp only [mainWith, hr, hres], h1,
        le_trans h2 h1⟩
  · intro pages s1 hsize hlen hfull hserve
    rcases List.eq_nil_or_concat pages with hnil | ⟨init, last, hcat⟩
    · rw [hnil] at hlen; simp at hlen; omega
    · rw [List.concat_eq_append] at hcat
      subst hcat
      rw [List.length_append, List.length_singleton] at hlen
      obtain ⟨s0, hs0, hlast⟩ := Serves_append fetch cfg since currency s1 [last] init 0 s hserve
      obtain ⟨f, hf, hres, -⟩ := hlast
      have hne : ∀ p ∈ init ++ [last], p ≠ [] := by
        intro p hp h
        have := hfull p hp
        rw [h] at this
        simp at this
        omega
      have hstep := pagingLoop_cap fetch cfg since currency 1
        (0 + init.length * cfg.pageSize) (0 + init.length) (foldPages Acc.empty init) s0 f last
        hf hres (hne last (by simp)) (by omega)
      obtain ⟨r1, hr1, hres1, hfet1, hfold1, -⟩ :=
        pagingLoop_full fetch cfg since currency s0 (1 + 1) _ init 0 0 Acc.empty s hs0
          (fun p hp => ⟨hfull p (List.mem_append_left _ hp), hne p (List.mem_append_left _ hp)⟩)
          (Or.inr (by omega)) hstep
      have hfuel : 1 + 1 + init.length = cfg.maxPages + 1 := by omega
      rw [hfuel] at hr1
      have hfold : foldPage (foldPages Acc.empty init) last =
          foldPages Acc.empty (init ++ [last]) := by
        simp [foldPages, List.foldl_append]
      simp only [hfold] at hres1
      refine ⟨⟨Except.ok (buildGraph (foldPages Acc.empty (init ++ [last]))), r1⟩, ?_, ?_,
        hfold1, hres1⟩
      · simp only [mainWith, hr1, hres1]
      · rw [hfet1]; simp [pageParams]; omega

/-- C20 (zero-attempt policy).  When `retries` is 0 or negative, `fetchPage`
makes no request, sleeps never, leaves the service as it was and returns
`undefined` without throwing; `main` takes that for an empty page: it stops after
this one call without folding anything and ends with the graph of no nodes and no
edges, not with an error. -/
theorem zero_attempt_policy (service : Service σ α) (cfg : Config) (since currency : String)
    (s : σ) (hretries : cfg.retries ≤ 0) :
    (∀ params, fetchPage service cfg.retries cfg.backoffMs params s =
      some ⟨Except.ok none, s, []⟩) ∧
    main service cfg since currency s =
      some ⟨Except.ok ⟨[], []⟩,
        ⟨Except.ok (StopReason.emptyPage, Acc.empty), [⟨since, currency, cfg.pageSize, 0⟩], [],
          s, []⟩⟩ := by
  have hf : ∀ params, fetchPage service cfg.retries cfg.backoffMs params s =
      some ⟨Except.ok none, s, []⟩ := by
    intro params
    have hno : ¬ ((1 : Nat) : Int) ≤ cfg.retries := by omega
    rw [fetchPage, fetchPageLoop, if_neg hno]
  refine ⟨hf, ?_⟩
  simp only [main, mainWith, pagingLoop, hf]
  rfl

end CapTheorems

theorem nonEmptyPage_of_ne {α : Type} (p : Page α) (h : p ≠ []) :
    nonEmptyPage (Except.ok (some p)) = some p := by
  have h0 : ¬ p.length = 0 := fun h1 => h (List.length_eq_zero.mp h1)
  simp only [nonEmptyPage, if_neg h0]

theorem pagesOf_cons_some {σ α : Type} (f : Fetched σ α) (fs : List (Fetched σ α)) (p : Page α)
    (h : nonEmptyPage f.result = some p) : pagesOf (f :: fs) = p :: pagesOf fs := by
  simp only [pagesOf, List.filterMap_cons, h]

theorem pagesOf_cons_none {σ α : Type} (f : Fetched σ α) (fs : List (Fetched σ α))
    (h : nonEmptyPage f.result = none) : pagesOf (f :: fs) = pagesOf fs := by
  simp only [pagesOf, List.filterMap_cons, h]

section FoldTheorems

variable {σ α : Type} [LinearOrderedRing α]

/-- What the paging loop fetched and folded: the fetches are at the ascending
offsets, all fetches but the last returned a non-empty page, the pages folded are
the non-empty pages returned, in order, and the accumulators at the end are
their fold. -/
theorem pagingLoop_runs (fetch : Params → σ → Option (Fetched σ α)) (cfg : Config)
    (since currency : String) :
    ∀ (fuel offset pageCount : Nat) (acc : Acc α) (s : σ) (r : Run σ α),
      pagingLoop fetch cfg since currency fuel offset pageCount acc s = some r →
      r.fetches = pageParams cfg since currency offset r.fetches.length ∧
      r.folded = pagesOf (fetchRuns fetch cfg since currency r.fetches.length offset s) ∧
      (∀ stop acc1, r.result = Except.ok (stop, acc1) → acc1 = foldPages acc r.folded) ∧
      ∃ init last,
        fetchRuns fetch cfg since currency r.fetches.length offset s = init ++ [last] ∧
        (∀ f ∈ init, ∃ p, f.result = Except.ok (some p) ∧ p ≠ []) ∧
        ((last.result = Except.ok none ∨ last.result = Except.ok (some [])) →
          r.result = Except.ok (StopReason.emptyPage, foldPages acc r.folded)) ∧
        (∀ e, last.result = Except.error e → r.result = Except.error e) := by
  intro fuel
  induction fuel with
  | zero => intro offset pageCount acc s r h; simp [pagingLoop] at h
  | succ fuel ih =>
    intro offset pageCount acc s r h
    obtain ⟨f, hf, hcase⟩ := pagingLoop_cases fetch cfg since currency fuel offset pageCount acc
      s r h
    have hone : fetchRuns fetch cfg since currency 1 offset s = [f] := by
      simp [fetchRuns, hf]
    have hpar : [(⟨since, currency, cfg.pageSize, offset⟩ : Params)] =
        pageParams cfg since currency offset 1 := by
      rw [pageParams_succ]; rfl
    rcases hcase with ⟨e, hres, rfl⟩ | ⟨hres, rfl⟩ | ⟨p, hres, hne, -, rfl⟩ |
      ⟨p, hres, hne, -, -, rfl⟩ | ⟨p, r1, hres, hne, -, -, hrec, rfl⟩
    · refine ⟨hpar, ?_, ?_, [], f, ?_, ?_, ?_, ?_⟩
      · simp only [List.length_singleton, hone]
        rw [pagesOf_cons_none f [] (by rw [hres]; rfl)]; rfl
      · intro stop acc1 h1; simp at h1
      · simpa using hone
      · intro g hg; simp at hg
      · intro h1; rcases h1 with h1 | h1 <;> rw [hres] at h1 <;> simp at h1
      · intro e1 h1; rw [hres] at h1; simp only [Except.error.injEq] at h1; rw [h1]
    · have hpg : pagesOf [f] = ([] : List (Page α)) := by
        rw [pagesOf_cons_none f [] (by rcases hres with h1 | h1 <;> rw [h1] <;> rfl)]; rfl
      refine ⟨hpar, ?_, ?_, [], f, ?_, ?_, ?_, ?_⟩
      · simp only [List.length_singleton, hone, hpg]
      · intro stop acc1 h1
        simp only [Except.ok.injEq, Prod.mk.injEq] at h1
        rw [← h1.2]; rfl
      · simpa using hone
      · intro g hg; simp at hg
      · intro _; rfl
      · intro e1 h1; rcases hres with h2 | h2 <;> rw [h2] at h1 <;> simp at h1
    · have hpg : pagesOf [f] = [p] := by
        rw [pagesOf_cons_some f [] p (by rw [hres]; exact nonEmptyPage_of_ne p hne)]; rfl
      refine ⟨hpar, ?_, ?_, [], f, ?_, ?_, ?_, ?_⟩
      · simp only [List.length_singleton, hone, hpg]
      · intro stop acc1 h1
        simp only [Except.ok.injEq, Prod.mk.injEq] at h1
        rw [← h1.2]; rfl
      · simpa using hone
      · intro g hg; simp at hg
      · intro h1
        rcases h1 with h1 | h1 <;> rw [hres] at h1 <;> simp at h1
        exact absurd h1 hne
      · intro e1 h1; rw [hres] at h1; simp at h1
    · have hpg : pagesOf [f] = [p] := by
        rw [pagesOf_cons_some f [] p (by rw [hres]; exact nonEmptyPage_of_ne p hne)]; rfl
      refine ⟨hpar, ?_, ?_, [], f, ?_, ?_, ?_, ?_⟩
      · simp only [List.length_singleton, hone, hpg]
      · intro stop acc1 h1
        simp only [Except.ok.injEq, Prod.mk.injEq] at h1
        rw [← h1.2]; rfl
      · simpa using hone
      · intro g hg; simp at hg
      · intro h1
        rcases h1 with h1 | h1 <;> rw [hres] at h1 <;> simp at h1
        exact absurd h1 hne
      · intro e1 h1; rw [hres] at h1; simp at h1
    · obtain ⟨hfet, hfold, hacc, init, last, hruns, hinit, hempty, herr⟩ :=
        ih (offset + cfg.pageSize) (pageCount + 1) (foldPage acc p) f.state r1 hrec
      have hcons : fetchRuns fetch cfg since currency (r1.fetches.length + 1) offset s =
          f :: fetchRuns fetch cfg since currency r1.fetches.length (offset + cfg.pageSize)
            f.state := by
        simp [fetchRuns, hf]
      have hfp : foldPages acc (p :: r1.folded) = foldPages (foldPage acc p) r1.folded := rfl
      refine ⟨?_, ?_, ?_, f :: init, last, ?_, ?_, ?_, ?_⟩
      · simp only [List.length_cons, pageParams_succ]
        rw [← hfet]
      · simp only [List.length_cons, hcons]
        rw [hfold, pagesOf_cons_some f _ p (by rw [hres]; exact nonEmptyPage_of_ne p hne)]
      · intro stop acc1 h1
        rw [hfp]
        exact hacc stop acc1 h1
      · simp only [List.length_cons, hcons, hruns, List.cons_append]
      · intro g hg
        rcases List.mem_cons.mp hg with h1 | h1
        · exact ⟨p, by rw [h1]; exact hres, hne⟩
        · exact hinit g h1
      · intro h1
        rw [hfp]
        exact hempty h1
      · exact herr

end FoldTheorems

section FoldClaims

variable {σ α : Type} [LinearOrderedRing α]

/-- The function `main` ends whenever the page source answers every call. -/
theorem mainWith_total (fetch : Params → σ → Option (Fetched σ α)) (cfg : Config)
    (since currency : String) (s : σ) (hfetch : ∀ params s, ∃ f, fetch params s = some f) :
    ∃ fin, mainWith fetch cfg since currency s = some fin := by
  obtain ⟨r, hr⟩ := pagingLoop_total fetch cfg since currency hfetch cfg.maxPages 0 0
    Acc.empty s (by omega)
  rcases hres : r.result with e | ⟨stop, acc⟩
  · exact ⟨⟨Except.error e, r⟩, by simp only [mainWith, hr, hres]⟩
  · exact ⟨⟨Except.ok (buildGraph acc), r⟩, by simp only [mainWith, hr, hres]⟩

/-- What a finished run of `main` fetched and folded. -/
theorem mainWith_runs (fetch : Params → σ → Option (Fetched σ α)) (cfg : Config)
    (since currency : String) (s : σ) (fin : Finished σ α)
    (h : mainWith fetch cfg since currency s = some fin) :
    fin.run.fetches = pageParams cfg since currency 0 fin.run.fetches.length ∧
    fin.run.folded =
      pagesOf (fetchRuns fetch cfg since currency fin.run.fetches.length 0 s) ∧
    (∀ stop acc, fin.run.result = Except.ok (stop, acc) →
      acc = foldPages Acc.empty fin.run.folded ∧ fin.out = Except.ok (buildGraph acc)) ∧
    (∃ init last,
      fetchRuns fetch cfg since currency fin.run.fetches.length 0 s = init ++ [last] ∧
      (∀ f ∈ init, ∃ p, f.result = Except.ok (some p) ∧ p ≠ []) ∧
      ((last.result = Except.ok none ∨ last.result = Except.ok (some [])) →
        fin.run.result =
          Except.ok (StopReason.emptyPage, foldPages Acc.empty fin.run.folded))) ∧
    (∀ f0, fetch ⟨since, currency, cfg.pageSize, 0⟩ s = some f0 →
      (f0.result = Except.ok none ∨ f0.result = Except.ok (some [])) →
      fin.run.folded = [] ∧ fin.out = Except.ok ⟨[], []⟩) := by
  unfold mainWith at h
  cases hr : pagingLoop fetch cfg since currency (cfg.maxPages + 1) 0 0 Acc.empty s with
  | none => simp [hr] at h
  | some r =>
    simp only [hr] at h
    have hrun : fin.run = r ∧ (∀ stop acc, r.result = Except.ok (stop, acc) →
        fin.out = Except.ok (buildGraph acc)) := by
      rcases hres : r.result with e | ⟨stop, acc⟩
      · simp only [hres, Option.some.injEq] at h
        rw [← h]
        exact ⟨rfl, fun stop acc h1 => by simp at h1⟩
      · simp only [hres, Option.some.injEq] at h
        rw [← h]
        refine ⟨rfl, fun stop1 acc1 h1 => ?_⟩
        simp only [Except.ok.injEq, Prod.mk.injEq] at h1
        rw [h1.2]
    obtain ⟨hfr, hout⟩ := hrun
    obtain ⟨hfet, hfold, hacc, init, last, hruns, hinit, hempty, -⟩ :=
      pagingLoop_runs fetch cfg since currency _ _ _ _ _ _ hr
    rw [hfr]
    refine ⟨hfet, hfold, fun stop acc h1 => ⟨hacc stop acc h1, hout stop acc h1⟩,
      ⟨init, last, hruns, hinit, hempty⟩, ?_⟩
    intro f0 hf0 hres0
    obtain ⟨f, hf, hcase⟩ := pagingLoop_cases fetch cfg since currency _ _ _ _ _ _ hr
    rw [hf0, Option.some.injEq] at hf
    subst hf
    rcases hcase with ⟨e, hres, -⟩ | ⟨-, hr1⟩ | ⟨p, hres, hne, -⟩ | ⟨p, hres, hne, -⟩ |
      ⟨p, r1, hres, hne, -⟩
    · rcases hres0 with h1 | h1 <;> rw [hres] at h1 <;> simp at h1
    · refine ⟨by rw [hr1], ?_⟩
      rw [hout StopReason.emptyPage Acc.empty (by rw [hr1])]
      rfl
    · rcases hres0 with h1 | h1 <;> rw [hres] at h1 <;> simp at h1
      exact absurd h1 hne
    · rcases hres0 with h1 | h1 <;> rw [hres] at h1 <;> simp at h1
      exact absurd h1 hne
    · rcases hres0 with h1 | h1 <;> rw [hres] at h1 <;> simp at h1
      exact absurd h1 hne

/-- C15 (exactly one fold per fetched page, at ascending offsets).  Over every
page source that answers every call, `main` ends, and in its run: the `i`-th
fetch is issued with offset `i * pageSize` and limit `pageSize`; every fetch but
the last returned a non-empty page; the pages folded are the non-empty pages
returned, in fetch order, each once; when the run ends without a fetch failure
the final accumulators are the fold of those pages into empty accumulators and
the output is the graph built from them; an empty or absent page is the last one
fetched, is not folded and ends the loop; and an empty or absent first page
gives the graph of no nodes and no edges. -/
theorem one_fold_per_page (fetch : Params → σ → Option (Fetched σ α)) (cfg : Config)
    (since currency : String) (s : σ)
    (hfetch : ∀ params s, ∃ f, fetch params s = some f) :
    ∃ fin, mainWith fetch cfg since currency s = some fin ∧
      fin.run.fetches = pageParams cfg since currency 0 fin.run.fetches.length ∧
      fin.run.folded =
        pagesOf (fetchRuns fetch cfg since currency fin.run.fetches.length 0 s) ∧
      (∀ stop acc, fin.run.result = Except.ok (stop, acc) →
        acc = foldPages Acc.empty fin.run.folded ∧ fin.out = Except.ok (buildGraph acc)) ∧
      (∃ init last,
        fetchRuns fetch cfg since currency fin.run.fetches.length 0 s = init ++ [last] ∧
        (∀ f ∈ init, ∃ p, f.result = Except.ok (some p) ∧ p ≠ []) ∧
        ((last.result = Except.ok none ∨ last.result = Except.ok (some [])) →
          fin.run.result =
            Except.ok (StopReason.emptyPage, foldPages Acc.empty fin.run.folded))) ∧
      (∀ f0, fetch ⟨since, currency, cfg.pageSize, 0⟩ s = some f0 →
        (f0.result = Except.ok none ∨ f0.result = Except.ok (some [])) →
        fin.run.folded = [] ∧ fin.out = Except.ok ⟨[], []⟩) := by
  obtain ⟨fin, hfin⟩ := mainWith_total fetch cfg since currency s hfetch
  exact ⟨fin, hfin, mainWith_runs fetch cfg since currency s fin hfin⟩

end FoldClaims

/-! ## Witnesses for the paging loop -/

/-- C14, witness: against a service that returns full pages forever, `main` with
the constants of the source (`maxPages = 4`) makes exactly 4 fetches and stops
through the page cap. -/
theorem page_cap_witness :
    (1 ≤ defaultConfig.maxPages) ∧
    (∃ fin, main endless defaultConfig "2025-09-24" "USDC" () = some fin ∧
      fin.run.fetches.length ≤ defaultConfig.maxPages ∧
      fin.run.folded.length ≤ defaultConfig.maxPages) ∧
    (∃ fin, main endless defaultConfig "2025-09-24" "USDC" () = some fin ∧
      fin.run.fetches.length = defaultConfig.maxPages ∧
      fin.run.folded = [fullPage, fullPage, fullPage, fullPage] ∧
      fin.run.result = Except.ok
        (StopReason.maxPages, foldPages Acc.empty [fullPage, fullPage, fullPage, fullPage])) :=
  ⟨by decide,
    (page_cap (fetchPage endless defaultConfig.retries defaultConfig.backoffMs) defaultConfig
      "2025-09-24" "USDC" () (fun params s => fetchPage_total endless _ _ params s)
      (by decide)).1,
    (page_cap (fetchPage endless defaultConfig.retries defaultConfig.backoffMs) defaultConfig
      "2025-09-24" "USDC" () (fun params s => fetchPage_total endless _ _ params s)
      (by decide)).2 [fullPage, fullPage, fullPage, fullPage] () (by decide) (by decide)
      (by decide) ⟨_, rfl, rfl, _, rfl, rfl, _, rfl, rfl, _, rfl, rfl, rfl⟩⟩

/-- C20, witness: with `retries = 0`, against a service that would fail every
request, `main` ends with the empty graph and no request is made. -/
theorem zero_attempt_policy_witness :
    noRetries.retries ≤ 0 ∧
    main down noRetries "2025-09-24" "USDC" () =
      some ⟨Except.ok ⟨[], []⟩,
        ⟨Except.ok (StopReason.emptyPage, Acc.empty), [⟨"2025-09-24", "USDC", 100, 0⟩], [], (),
          []⟩⟩ :=
  ⟨by decide, (zero_attempt_policy down noRetries "2025-09-24" "USDC" () (by decide)).2⟩

section LargeWitness

set_option maxRecDepth 100000

/-- C11, witness: of 301 accumulated addresses the one with the least total is
left out, and its total 1 is at most the value 301 of the first output node. -/
theorem top_n_selection_witness :
    ((String.mk (List.replicate 300 'x'), (1 : ℤ)) ∈ manyNodes.nodeValueUSD) ∧
    (String.mk (List.replicate 300 'x') ∉ (buildGraph manyNodes).nodes.map (fun n => n.id)) ∧
    ((⟨"", "", 301⟩ : Node ℤ) ∈ (buildGraph manyNodes).nodes) ∧
    (1 : ℤ) ≤ 301 :=
  ⟨by decide, by decide, by decide,
    (top_n_selection manyNodes).2.2.1 (String.mk (List.replicate 300 'x'), 1) (by decide)
      (by decide) ⟨"", "", 301⟩ (by decide)⟩

/-- C15, witness: the scripted service answers every call; on the script of
pages of 100, 100 and 40 records `main` ends after three fetches at offsets 0,
100 and 200, the pages folded are these three pages in this order, the
accumulators are their fold, and the loop is left through the short-page
`break`. -/
theorem one_fold_per_page_witness :
    (∀ params s, ∃ f,
      fetchPage scripted defaultConfig.retries defaultConfig.backoffMs params s = some f) ∧
    (∃ fin, main scripted defaultConfig "2025-09-24" "USDC" threePages = some fin ∧
      fin.run.fetches =
        pageParams defaultConfig "2025-09-24" "USDC" 0 fin.run.fetches.length ∧
      fin.run.folded =
        pagesOf (fetchRuns (fetchPage scripted defaultConfig.retries defaultConfig.backoffMs)
          defaultConfig "2025-09-24" "USDC" fin.run.fetches.length 0 threePages) ∧
      (∀ stop acc, fin.run.result = Except.ok (stop, acc) →
        acc = foldPages Acc.empty fin.run.folded ∧
          fin.out = Except.ok (buildGraph acc))) ∧
    (main scripted defaultConfig "2025-09-24" "USDC" threePages).map
        (fun fin => fin.run.fetches) =
      some [⟨"2025-09-24", "USDC", 100, 0⟩, ⟨"2025-09-24", "USDC", 100, 100⟩,
        ⟨"2025-09-24", "USDC", 100, 200⟩] ∧
    (main scripted defaultConfig "2025-09-24" "USDC" threePages).map
        (fun fin => fin.run.folded) = some [fullPage, fullPage, lastPage] ∧
    (main scripted defaultConfig "2025-09-24" "USDC" threePages).map
        (fun fin => fin.run.result.toOption.map Prod.fst) =
      some (some StopReason.shortPage) :=
  ⟨fun params s => fetchPage_total scripted _ _ params s,
    (one_fold_per_page (fetchPage scripted defaultConfig.retries defaultConfig.backoffMs)
      defaultConfig "2025-09-24" "USDC" threePages
      (fun params s => fetchPage_total scripted _ _ params s)).imp
      (fun _ h => ⟨h.1, h.2.1, h.2.2.1, h.2.2.2.1⟩),
    by decide, by decide, by decide⟩

end LargeWitness

end Bubblemap
